import Mathlib

/-!
Shallow embedding of the `arc` radix-tree key-value store (chronohq/arc).

Byte slices are modelled as `List Nat` (byte values are never inspected
beyond equality and ordering, so the 0..255 bound is immaterial).  A Go
`nil` slice and an empty slice only ever differ at the API boundary
(`key == nil` checks), so API keys are modelled as `Option (List Nat)`
(`none` = nil slice) while keys stored inside nodes are plain lists: the
only in-tree nil check, `a.root.key == nil` in `Put`, is subsumed by the
length comparison it is disjoined with (a nil key has length 0).

The sibling singly-linked list (`firstChild`/`nextSibling`) is modelled
as a `List` of children; the cached `numChildren` counter, which the Go
code keeps in lockstep with the list, is the list length.

`blob.go` and the node-serialization code are absent from src/ (only
their tests are present); those parts are modelled from the spec and
are marked as such in their doc comments.
-/

/-- Error values from arc.go (ErrCorrupted, ErrKeyNotFound, ErrKeyTooLarge,
ErrNilKey, ErrValueTooLarge) plus ErrInvalidChecksum from the serialization
layer. -/
inductive GoErr where
  | corrupted
  | keyNotFound
  | keyTooLarge
  | nilKey
  | valueTooLarge
  | invalidChecksum
deriving DecidableEq, Repr

/-- maxKeyBytes from arc.go: the maximum key size (maxUint16). -/
def maxKeyBytes : Nat := 65535

/-- maxValueBytes from arc.go: the maximum value size (maxUint32). -/
def maxValueBytes : Nat := 4294967295

/-- longestCommonPrefix from arc.go: walks both slices while the bytes agree
and returns the shared prefix; the Go function returns nil when no byte
matches, modelled as the empty list. -/
def lcp : List Nat → List Nat → List Nat
  | a :: as, b :: bs => if a = b then a :: lcp as bs else []
  | _, _ => []

/-- bytes.Compare a b < 0: strict lexicographic order on byte slices, used by
addChild to keep the child list sorted. -/
def bytesCmpLt : List Nat → List Nat → Bool
  | [], [] => false
  | [], _ :: _ => true
  | _ :: _, [] => false
  | a :: as, b :: bs => if a < b then true else if b < a then false else bytesCmpLt as bs

/-- node from node.go.  `data` is `none` for a Go nil data pointer; `children`
models the firstChild/nextSibling linked list in list order; the cached
`numChildren` field is the length of that list. -/
inductive node where
  | mk (key : List Nat) (isRecord : Bool) (blobValue : Bool)
       (data : Option (List Nat)) (children : List node)

/-- Path segment of the node. -/
def node.key : node → List Nat
  | .mk k _ _ _ _ => k

/-- True if the node contains a database record. -/
def node.isRecord : node → Bool
  | .mk _ r _ _ _ => r

/-- True if the value is stored in the blobStore. -/
def node.blobValue : node → Bool
  | .mk _ _ b _ _ => b

/-- The node's content: inline bytes or a blobID. -/
def node.data : node → Option (List Nat)
  | .mk _ _ _ d _ => d

/-- The node's children, in sibling-list order. -/
def node.children : node → List node
  | .mk _ _ _ _ cs => cs

/-- setKey from node.go: updates the node's key with the provided value. -/
def node.setKey : node → List Nat → node
  | .mk _ r b d cs, k => .mk k r b d cs

/-- Replaces the node's child list (models in-place mutation of the
firstChild link structure). -/
def node.setChildren : node → List node → node
  | .mk k r b d _, cs => .mk k r b d cs

/-- numChildren: cached count of connected child nodes, kept equal to the
length of the sibling list by addChild/removeChild. -/
def node.numChildren (n : node) : Nat := n.children.length

/-- isLeaf from node.go: true if the receiver node has no children
(firstChild == nil). -/
def node.isLeaf (n : node) : Bool := n.children.isEmpty

/-- hasChildren from node.go: true if the receiver node has children. -/
def node.hasChildren (n : node) : Bool := !n.children.isEmpty

/-- prependKey from node.go: prepends the given prefix to the node's existing
key; no-op on an empty prefix. -/
def node.prependKey (n : node) (p : List Nat) : node :=
  if p.length = 0 then n else n.setKey (p ++ n.key)

/-- The walk inside addChild: the new child is inserted before the first
element whose key is not smaller than the child's key (Go advances while
`current.nextSibling.key < child.key` and splices after `current`). -/
def insertTail : List node → node → List node
  | [], c => [c]
  | x :: xs, c => if bytesCmpLt x.key c.key then x :: insertTail xs c else c :: x :: xs

/-- addChild from node.go: inserts the given child into the sorted list of
children, ascending by key; an empty list or a smallest key become the new
first child, otherwise the insertion walk runs from the first child. -/
def addChild : List node → node → List node
  | [], c => [c]
  | f :: rest, c =>
    if bytesCmpLt c.key f.key then c :: f :: rest else f :: insertTail rest c

/-- removeChild from node.go: removes the first child whose key equals the
given child's key; `none` models the ErrKeyNotFound return when no child
matches (including the empty-list case). -/
def removeChild : List node → List Nat → Option (List node)
  | [], _ => none
  | x :: xs, k => if x.key = k then some xs else (removeChild xs k).map (x :: ·)

/-- findCompatibleChild from node.go: returns the first child sharing a
non-empty common prefix with the key. -/
def findCompatibleChild (cs : List node) (k : List Nat) : Option node :=
  cs.find? (fun c => decide (lcp c.key k ≠ []))

/-- findChild from node.go: returns the child that exactly matches the key. -/
def findChild (cs : List node) (k : List Nat) : Option node :=
  cs.find? (fun c => decide (c.key = k))

/-- The node returned by findCompatibleChild is a member of the child list. -/
theorem findCompatibleChild_mem {cs : List node} {k : List Nat} {c : node}
    (h : findCompatibleChild cs k = some c) : c ∈ cs :=
  List.mem_of_find?_eq_some h

/-- A member of a node's child list is structurally smaller than the node. -/
theorem sizeOf_lt_of_mem_children {c n : node} (h : c ∈ n.children) :
    sizeOf c < sizeOf n := by
  cases n with
  | mk k r b d cs =>
    have h1 : sizeOf c < sizeOf cs := List.sizeOf_lt_of_mem h
    simp only [node.mk.sizeOf_spec]
    omega

/-! ## Blob store

`blob.go` is absent from src/ (only `blob_test.go` is present).  The
definitions below are modelled from the spec: a mapping from blobID (a
deterministic content hash of the value) to an entry {value bytes, refCount},
here an association list of (blobID, value, refCount) triples.  The spec
fixes no hash algorithm, only that it is deterministic, fixed-width and
collision-free for dedup correctness; the hash is modelled as the identity
injection on byte strings. -/

/-- Modelled from the spec: the content hash producing a blobID, deterministic
and collision-free; modelled as the identity injection since the spec
mandates no particular algorithm (spec §9, open question). -/
def makeBlobID (v : List Nat) : List Nat := v

/-- The blob store: association list of (blobID, value, refCount). -/
abbrev blobStore : Type := List (List Nat × List Nat × Nat)

/-- Lookup of a blobID's entry (value, refCount) in the store. -/
def blobFind (s : blobStore) (i : List Nat) : Option (List Nat × Nat) :=
  (List.find? (fun e => decide (e.1 = i)) s).map (fun e => e.2)

/-- Modelled from the spec: `get(blobID)` returns the stored value bytes, or
absent if the ID is unknown. -/
def blobGet (s : blobStore) (i : List Nat) : Option (List Nat) :=
  (blobFind s i).map (fun e => e.1)

/-- Modelled from the spec: `put(value)` computes the content hash; if an
entry with that ID exists its refCount is incremented, otherwise a new entry
with refCount 1 is inserted; the ID is returned either way. -/
def blobPut (s : blobStore) (v : List Nat) : List Nat × blobStore :=
  let i := makeBlobID v
  match blobFind s i with
  | some _ =>
    (i, List.map (fun e => if e.1 = i then (e.1, e.2.1, e.2.2 + 1) else e) s)
  | none => (i, s ++ [(i, v, 1)])

/-- Modelled from the spec: `release(blobID)` decrements the entry's refCount
and removes the entry when the count reaches zero; an unknown ID is a no-op. -/
def blobRelease (s : blobStore) (i : List Nat) : blobStore :=
  match blobFind s i with
  | none => s
  | some e =>
    if e.2 - 1 = 0 then List.filter (fun x => decide (¬ x.1 = i)) s
    else List.map (fun x => if x.1 = i then (x.1, x.2.1, x.2.2 - 1) else x) s

/-- inlineValueThreshold: the 32-byte inline threshold (spec §3/§4.2; the
constant's declaration is in the part of the repository absent from src/,
node.go line 119 uses it). -/
def inlineValueThreshold : Nat := 32

/-- setValue from node.go: releases a previously held blob reference, stores
values at or below the inline threshold directly, stores larger values via
the blob store keeping only the blobID, and marks the node as a record. -/
def setValue (n : node) (bs : blobStore) (v : List Nat) : node × blobStore :=
  let bs1 := if n.blobValue then blobRelease bs (n.data.getD []) else bs
  if v.length ≤ inlineValueThreshold then
    (node.mk n.key true false (some v) n.children, bs1)
  else
    let r := blobPut bs1 v
    (node.mk n.key true true (some r.1) n.children, r.2)

/-- value from node.go: nil data resolves to nil, inline data is returned
(as a copy), blob data is dereferenced through the store (an unknown blobID
dereferences to nil).  Go's nil result is modelled as the empty list. -/
def nodeValue (n : node) (bs : blobStore) : List Nat :=
  match n.data with
  | none => []
  | some d => if n.blobValue then (blobGet bs d).getD [] else d

/-- deleteValue from node.go: releases any blob reference and clears the
data pointer (isRecord is untouched). -/
def deleteValue (n : node) (bs : blobStore) : node × blobStore :=
  let bs1 := if n.blobValue then blobRelease bs (n.data.getD []) else bs
  (node.mk n.key n.isRecord n.blobValue none n.children, bs1)

/-! ## The Put loop -/

/-- Outcome of one arc.go Put-loop iteration below the root, telling the
parent how to splice the result into its child list: `inPlace` replaces the
visited child in place (pointer mutation), `rebuildStrict` replaces it via
removeChild (whose error aborts Put, line 147) followed by addChild,
`rebuildLoose` does the same but ignores the removeChild error (splitNode,
line 342).  `dn`/`dr` are the node/record counter increments. -/
inductive PutRes where
  | inPlace (n : node) (dn dr : Nat)
  | rebuildStrict (n : node) (dn dr : Nat)
  | rebuildLoose (n : node) (dn dr : Nat)
  | fail (e : GoErr)

/-- Replaces the first child sharing a non-empty prefix with `k` (the one
findCompatibleChild selects and the Put loop descends into) by `n'`,
modelling Go's in-place pointer mutation of that child. -/
def replaceFirstCompat : List node → List Nat → node → List node
  | [], _, _ => []
  | c :: cs, k, n' =>
    if lcp c.key k ≠ [] then n' :: cs else c :: replaceFirstCompat cs k n'

/-- The parent-side splice for a child's Put-loop outcome: in-place results
keep the child's position, rebuild results remove the old child by its
(pre-mutation) key and re-insert the replacement with addChild. -/
def spliceChild (cur : node) (k2 : List Nat) (c : node) (r : PutRes × blobStore) :
    Except GoErr (node × Nat × Nat) × blobStore :=
  match r with
  | (.fail e, bs') => (.error e, bs')
  | (.inPlace n' dn dr, bs') =>
    (.ok (cur.setChildren (replaceFirstCompat cur.children k2 n'), dn, dr), bs')
  | (.rebuildStrict n' dn dr, bs') =>
    match removeChild cur.children c.key with
    | none => (.error .keyNotFound, bs')
    | some l => (.ok (cur.setChildren (addChild l n'), dn, dr), bs')
  | (.rebuildLoose n' dn dr, bs') =>
    (.ok (cur.setChildren (addChild ((removeChild cur.children c.key).getD cur.children) n'), dn, dr), bs')

/-- The Put loop of arc.go lines 115-205 for a non-root `current` node, as a
recursive function on the subtree.  `k` is the remaining key (the Go code
keeps `newNode.key` equal to it), `nd` the (data, blobValue) fields of the
node being inserted, `v`/`bs` the value and blob store for the exact-match
overwrite. -/
def putLoop (cur : node) (k : List Nat) (nd : Option (List Nat) × Bool)
    (v : List Nat) (bs : blobStore) : PutRes × blobStore :=
  let pl := (lcp cur.key k).length
  if pl = cur.key.length ∧ pl = k.length then
    -- exact match: overwrite in place (arc.go line 121)
    let s1 := setValue cur bs v
    (.inPlace s1.1 0 (if cur.isRecord then 0 else 1), s1.2)
  else if pl = k.length ∧ pl < cur.key.length then
    -- the new node becomes the parent of current (arc.go line 138)
    (.rebuildStrict (node.mk k true nd.2 nd.1 [cur.setKey (cur.key.drop pl)]) 1 1, bs)
  else if 0 < pl ∧ pl < cur.key.length then
    -- partial match: split via an intermediate parent (arc.go line 163 / splitNode)
    (.rebuildLoose (node.mk (lcp cur.key k) false false none
        (addChild (addChild [] (cur.setKey (cur.key.drop pl)))
          (node.mk (k.drop pl) true nd.2 nd.1 []))) 2 1, bs)
  else
    match h : findCompatibleChild cur.children (k.drop pl) with
    | none =>
      -- deepest level reached, non-root: newNode becomes a child (line 192)
      (.inPlace (cur.setChildren (addChild cur.children
        (node.mk (k.drop pl) true nd.2 nd.1 []))) 1 1, bs)
    | some c =>
      match spliceChild cur (k.drop pl) c (putLoop c (k.drop pl) nd v bs) with
      | (.ok t, bs') => (.inPlace t.1 t.2.1 t.2.2, bs')
      | (.error e, bs') => (.fail e, bs')
termination_by sizeOf cur
decreasing_by
  exact sizeOf_lt_of_mem_children (findCompatibleChild_mem h)

/-! ## The Arc handle -/

/-- Arc from arc.go: root pointer and cached counters.  The blob store is
carried here as the spec's §2 component diagram and node.go's setValue
signature require (the handle glue wiring it into Put/Get is part of the
repository absent from src/, modelled from the spec). -/
structure Arc where
  root : Option node
  numNodes : Nat
  numRecords : Nat
  blobs : blobStore

/-- New from arc.go: an empty Arc database handler. -/
def arcNew : Arc := ⟨none, 0, 0, []⟩

/-- empty from arc.go: root == nil && numRecords == 0. -/
def Arc.emptyb (a : Arc) : Bool := a.root.isNone && a.numRecords == 0

/-- Len from arc.go: the number of records. -/
def Arc.Len (a : Arc) : Nat := a.numRecords

/-- clear from arc.go: wipes the tree and resets metadata. -/
def Arc.clear (a : Arc) : Arc := ⟨none, 0, 0, a.blobs⟩

/-- Put from arc.go lines 67-206.  Validation, then the empty-tree and
disjoint-root special cases, then the first loop iteration (the only one
where `current == a.root` can hold) unrolled, descending through `putLoop`
for deeper iterations.  Returns the new handle and the Go error value; on
error the tree fields are returned unchanged, matching the Go receiver.
Where arc.go's pre-blob glue calls `setValue(value)`, the blob store is
threaded per node.go's `setValue(bs, value)` signature (modelled from the
spec, §4.2/§4.4).  A `none` root with `emptyb` false would be a nil-pointer
dereference in Go; it is modelled as ErrCorrupted and is unreachable from
consistent states. -/
def Arc.Put (a : Arc) (key : Option (List Nat)) (v : List Nat) : Arc × Option GoErr :=
  match key with
  | none => (a, some .nilKey)
  | some k =>
    if k.length > maxKeyBytes then (a, some .keyTooLarge)
    else if v.length > maxValueBytes then (a, some .valueTooLarge)
    else
      let s0 := setValue (node.mk k false false none []) a.blobs v
      let nw := s0.1
      let bs1 := s0.2
      if a.emptyb then
        ({ a with
                 root := some nw, numNodes := 1, numRecords := 1, blobs := bs1 }, none)
      else
        match a.root with
        | none => (a, some .corrupted)
        | some r =>
          if r.key ≠ [] ∧ lcp r.key k = [] then
            -- no shared prefix with a non-empty-key root: group under a nil-key root
            ({ a with
                 root := some (node.mk [] false false none (addChild (addChild [] r) nw)),
                 numNodes := a.numNodes + 2, numRecords := a.numRecords + 1, blobs := bs1 }, none)
          else
            let pl := (lcp r.key k).length
            if pl = r.key.length ∧ pl = k.length then
              let s1 := setValue r bs1 v
              ({ a with
                 root := some s1.1,
                 numRecords := a.numRecords + (if r.isRecord then 0 else 1), blobs := s1.2 }, none)
            else if pl = k.length ∧ pl < r.key.length then
              ({ a with
                 root := some (node.mk k true nw.blobValue nw.data [r.setKey (r.key.drop pl)]),
                 numNodes := a.numNodes + 1, numRecords := a.numRecords + 1, blobs := bs1 }, none)
            else if 0 < pl ∧ pl < r.key.length then
              ({ a with
                 root := some (node.mk (lcp r.key k) false false none
                 (addChild (addChild [] (r.setKey (r.key.drop pl))) (nw.setKey (k.drop pl)))),
                 numNodes := a.numNodes + 2, numRecords := a.numRecords + 1, blobs := bs1 }, none)
            else
              match findCompatibleChild r.children (k.drop pl) with
              | none =>
                if pl = r.key.length then
                  -- arc.go line 178; the `root.key == nil` disjunct is subsumed:
                  -- a nil key has length 0 and pl ≤ 0 forces pl = 0
                  ({ a with
                 root := some (r.setChildren (addChild r.children (nw.setKey (k.drop pl)))),
                 numNodes := a.numNodes + 1, numRecords := a.numRecords + 1, blobs := bs1 }, none)
                else
                  -- arc.go line 183: new root keyed by the (here empty) prefix
                  ({ a with
                 root := some (node.mk (lcp r.key k) false false none
                 (addChild (addChild [] r) (nw.setKey (k.drop pl)))),
                 numNodes := a.numNodes + 2, numRecords := a.numRecords + 1, blobs := bs1 }, none)
              | some c =>
                match spliceChild r (k.drop pl) c (putLoop c (k.drop pl) (nw.data, nw.blobValue) v bs1) with
                | (.ok t, bs') =>
                  ({ a with
                 root := some t.1, numNodes := a.numNodes + t.2.1,
                 numRecords := a.numRecords + t.2.2, blobs := bs' }, none)
                | (.error e, bs') => ({ a with
                 blobs := bs' }, some e)

/-- findNodeAndParent's loop, arc.go lines 372-406: `par` is `none` exactly
when `cur` is the root (the Go parent pointer). -/
def findNP (cur : node) (k : List Nat) (par : Option node) :
    Except GoErr (node × Option node) :=
  let pl := (lcp cur.key k).length
  if lcp cur.key k = [] ∧ par.isSome then .error .keyNotFound
  else if ¬ pl = cur.key.length then .error .keyNotFound
  else if pl = k.length then .ok (cur, par)
  else if cur.children.isEmpty then .error .keyNotFound
  else
    match h : findCompatibleChild cur.children (k.drop pl) with
    | none => .error .keyNotFound
    | some c => findNP c (k.drop pl) (some cur)
termination_by sizeOf cur
decreasing_by
  exact sizeOf_lt_of_mem_children (findCompatibleChild_mem h)

/-- Get from arc.go lines 210-229 combined with findNodeAndParent's nil/empty
checks (lines 362-368).  The found record's value is resolved through
node.go's `value` (the handle glue is modelled from the spec, §4.5: "Returns
the resolved value (inline copy or blob dereference)").  A `none` root with
`emptyb` false is Go's nil dereference, modelled as ErrCorrupted. -/
def Arc.Get (a : Arc) (key : Option (List Nat)) : Except GoErr (List Nat) :=
  match key with
  | none => .error .nilKey
  | some k =>
    if a.emptyb then .error .keyNotFound
    else
      match a.root with
      | none => .error .corrupted
      | some r =>
        match findNP r k none with
        | .error e => .error e
        | .ok t => if ¬ t.1.isRecord then .error .keyNotFound else .ok (nodeValue t.1 a.blobs)

/-- deleteRootNode from arc.go lines 274-299: a leaf root clears the tree; a
single-child root is replaced by that child with the root's key prepended,
decrementing the node count; a multi-child root is demoted to a non-record
node with nil data; the record count decrements in the two non-leaf cases. -/
def Arc.deleteRootNode (a : Arc) : Arc :=
  match a.root with
  | none => a
  | some r =>
    if r.isLeaf then a.clear
    else if r.numChildren = 1 then
      match r.children with
      | c :: _ =>
        { a with
                 root := some (c.prependKey r.key), numNodes := a.numNodes - 1,
                 numRecords := a.numRecords - 1 }
      | [] => a
    else
      { a with
                 root := some (node.mk r.key false r.blobValue none r.children),
                 numRecords := a.numRecords - 1 }

/-- Delete from arc.go lines 232-270: nil key, empty tree and key size are
checked in that order; then the target is located; a root target goes through
deleteRootNode; for a non-root target the code only verifies that the parent
is non-nil and returns nil without any structural change (the ErrCorrupted
branch cannot fire since a parent-less target is the root). -/
def Arc.Delete (a : Arc) (key : Option (List Nat)) : Arc × Option GoErr :=
  match key with
  | none => (a, some .nilKey)
  | some k =>
    if a.emptyb then (a, some .keyNotFound)
    else if k.length > maxKeyBytes then (a, some .keyTooLarge)
    else
      match a.root with
      | none => (a, some .corrupted)
      | some r =>
        match findNP r k none with
        | .error e => (a, some e)
        | .ok t =>
          if ¬ t.1.isRecord then (a, some .keyNotFound)
          else
            match t.2 with
            | none => (a.deleteRootNode, none)
            | some _ => (a, none)

/-! ## Node serialization (radixdb era)

The serialization code (checksum, serializeWithoutKey) is absent from src/;
only its tests (src/unnamed/part_000) are present.  The node of that era and
the serializer are modelled from the spec (§4.3, §6). -/

/-- Little-endian encoding of `n mod 2^(8*w)` in exactly `w` bytes. -/
def toLE : Nat → Nat → List Nat
  | 0, _ => []
  | w + 1, n => (n % 256) :: toLE w (n / 256)

/-- Modelled from the spec: the checksum is a fixed-width (32-bit) integrity
value computed over {keySegment, value bytes, isRecord} (spec §3).  The
algorithm is not fixed by the spec; any deterministic function works, here a
polynomial fold. -/
def checksumOf (key data : List Nat) (isRecord : Bool) : Nat :=
  ((key.foldl (fun h b => h * 31 + b) 17 * 31 +
     data.foldl (fun h b => h * 31 + b) 19) * 31 +
    (if isRecord then 1 else 0)) % 4294967296

/-- A node of the serialization era (package radixdb, src/unnamed/part_000):
key, data, isRecord, the cached uint16 child count and the cached uint32
checksum.  Sibling links are irrelevant to serialization and omitted. -/
structure rnode where
  key : List Nat
  data : List Nat
  isRecord : Bool
  numChildren : Nat
  checksum : Nat

/-- calculateChecksum: recompute the checksum from the node's current
content.  Modelled from the spec (§4.2). -/
def rnode.calculateChecksum (n : rnode) : Nat :=
  checksumOf n.key n.data n.isRecord

/-- verifyChecksum: the cached checksum matches the recomputed one.
Modelled from the spec (§4.2). -/
def rnode.verifyChecksum (n : rnode) : Bool :=
  n.checksum == n.calculateChecksum

/-- updateChecksum: refresh the cached checksum.  Modelled from the spec. -/
def rnode.updateChecksum (n : rnode) : rnode :=
  { n with checksum := n.calculateChecksum }

/-- serializeWithoutKey, modelled from the spec (§4.3/§6): fails with the
invalid-checksum error unless verifyChecksum holds; on success emits, in
little-endian order, the 4-byte checksum, the 8-byte value length, the value
bytes, the 2-byte child count and a 16-byte reserved region of two 8-byte
offset slots.  The key segment is not part of the encoding. -/
def rnode.serializeWithoutKey (n : rnode) : Except GoErr (List Nat) :=
  if ¬ n.verifyChecksum then .error .invalidChecksum
  else .ok (toLE 4 n.checksum ++ toLE 8 n.data.length ++ n.data ++
    toLE 2 n.numChildren ++ List.replicate 16 0)

/-- serializedSize, modelled from the spec: the exact byte length of the
serializeWithoutKey output. -/
def rnode.serializedSize (n : rnode) : Nat :=
  4 + 8 + n.data.length + 2 + 16

/-! ## Relations used by the claims -/

/-- Sibling-prefix disjointness: no two children of the node (at distinct
list positions) share a non-empty common key prefix, recursively at every
node of the subtree. -/
inductive wfN : node → Prop where
  | mk {k : List Nat} {r b : Bool} {d : Option (List Nat)} {cs : List node} :
      cs.Pairwise (fun x y => lcp x.key y.key = []) →
      (∀ c ∈ cs, wfN c) → wfN (node.mk k r b d cs)

/-- Membership of a node in a subtree (reflexive-transitive child closure). -/
inductive InTree : node → node → Prop where
  | refl (n : node) : InTree n n
  | child {m c n : node} : c ∈ n.children → InTree m c → InTree m n

/-- Trees reachable from the empty handle by successful Put calls. -/
inductive Reachable : Arc → Prop where
  | base : Reachable arcNew
  | put {a a' : Arc} {k : List Nat} {v : List Nat} :
      Reachable a → Arc.Put a (some k) v = (a', none) → Reachable a'

/-- n-fold repetition of blobPut of the same value, starting from the empty
store. -/
def putN (v : List Nat) : Nat → blobStore
  | 0 => []
  | n + 1 => (blobPut (putN v n) v).2

/-! ## Basic lemmas about lcp -/

theorem lcp_nil_left (b : List Nat) : lcp [] b = [] := by
  cases b <;> rfl

theorem lcp_nil_right (a : List Nat) : lcp a [] = [] := by
  cases a <;> rfl

theorem lcp_cons_cons (a b : Nat) (as bs : List Nat) :
    lcp (a :: as) (b :: bs) = if a = b then a :: lcp as bs else [] := rfl

theorem lcp_self (a : List Nat) : lcp a a = a := by
  induction a with
  | nil => rfl
  | cons x xs ih => simp [lcp_cons_cons, ih]

theorem lcp_comm (a b : List Nat) : lcp a b = lcp b a := by
  induction a generalizing b with
  | nil => simp [lcp_nil_left, lcp_nil_right]
  | cons x xs ih =>
    cases b with
    | nil => simp [lcp_nil_left, lcp_nil_right]
    | cons y ys =>
      by_cases h : x = y
      · subst h; simp [lcp_cons_cons, ih]
      · simp [lcp_cons_cons, h, Ne.symm h]

theorem lcp_length_le_left (a b : List Nat) : (lcp a b).length ≤ a.length := by
  induction a generalizing b with
  | nil => simp [lcp_nil_left]
  | cons x xs ih =>
    cases b with
    | nil => simp [lcp_nil_right]
    | cons y ys =>
      rw [lcp_cons_cons]
      split
      · simpa using ih ys
      · simp

theorem lcp_length_le_right (a b : List Nat) : (lcp a b).length ≤ b.length := by
  rw [lcp_comm]; exact lcp_length_le_left b a

theorem lcp_append_drop_left (a b : List Nat) :
    lcp a b ++ a.drop (lcp a b).length = a := by
  induction a generalizing b with
  | nil => simp [lcp_nil_left]
  | cons x xs ih =>
    cases b with
    | nil => simp [lcp_nil_right]
    | cons y ys =>
      rw [lcp_cons_cons]
      split
      · simpa using ih ys
      · simp

theorem lcp_append_drop_right (a b : List Nat) :
    lcp a b ++ b.drop (lcp a b).length = b := by
  rw [lcp_comm]; exact lcp_append_drop_left b a

theorem lcp_eq_right_of_length {a b : List Nat}
    (h : (lcp a b).length = b.length) : lcp a b = b := by
  have h1 := lcp_append_drop_right a b
  rw [h, List.drop_length, List.append_nil] at h1
  exact h1

theorem lcp_eq_left_of_length {a b : List Nat}
    (h : (lcp a b).length = a.length) : lcp a b = a := by
  rw [lcp_comm] at *
  exact lcp_eq_right_of_length (by simpa using h)

theorem lcp_ne_nil_iff {a b : List Nat} :
    lcp a b ≠ [] ↔ ∃ x as bs, a = x :: as ∧ b = x :: bs := by
  constructor
  · intro h
    cases a with
    | nil => simp [lcp_nil_left] at h
    | cons x xs =>
      cases b with
      | nil => simp [lcp_nil_right] at h
      | cons y ys =>
        rw [lcp_cons_cons] at h
        by_cases hxy : x = y
        · exact ⟨x, xs, ys, rfl, by rw [hxy]⟩
        · simp [hxy] at h
  · rintro ⟨x, as, bs, rfl, rfl⟩
    simp [lcp_cons_cons]

theorem lcp_ne_nil_trans {a b k : List Nat}
    (h1 : lcp a k ≠ []) (h2 : lcp b k ≠ []) : lcp a b ≠ [] := by
  obtain ⟨x, as1, ks1, ha, hk1⟩ := lcp_ne_nil_iff.mp h1
  obtain ⟨y, bs1, ks2, hb, hk2⟩ := lcp_ne_nil_iff.mp h2
  have : x = y := by rw [hk1] at hk2; exact (List.cons.injEq _ _ _ _ ▸ hk2).1
  subst this
  rw [ha, hb]
  exact lcp_ne_nil_iff.mpr ⟨x, as1, bs1, rfl, rfl⟩

theorem lcp_lcp_right (a b : List Nat) : lcp (lcp a b) b = lcp a b := by
  induction a generalizing b with
  | nil => simp [lcp_nil_left]
  | cons x xs ih =>
    cases b with
    | nil => simp [lcp_nil_right]
    | cons y ys =>
      rw [lcp_cons_cons]
      split
      · rename_i hxy
        subst hxy
        rw [lcp_cons_cons]
        simp [ih ys]
      · simp [lcp_nil_left]

theorem lcp_drop_drop (a b : List Nat) :
    lcp (a.drop (lcp a b).length) (b.drop (lcp a b).length) = [] := by
  induction a generalizing b with
  | nil => simp [lcp_nil_left]
  | cons x xs ih =>
    cases b with
    | nil => simp [lcp_nil_right, lcp_nil_left]
    | cons y ys =>
      rw [lcp_cons_cons]
      split
      · simpa using ih ys
      · rename_i hxy
        simpa [lcp_cons_cons] using hxy

theorem lcp_length_eq_zero_iff {a b : List Nat} :
    (lcp a b).length = 0 ↔ lcp a b = [] := List.length_eq_zero

/-! ## Lemmas about findCompatibleChild, addChild, removeChild -/

theorem findCompatibleChild_some {cs : List node} {k : List Nat} {c : node}
    (h : findCompatibleChild cs k = some c) : c ∈ cs ∧ lcp c.key k ≠ [] := by
  refine ⟨List.mem_of_find?_eq_some h, ?_⟩
  have := List.find?_some h
  simpa using this

theorem findCompatibleChild_none {cs : List node} {k : List Nat}
    (h : findCompatibleChild cs k = none) : ∀ c ∈ cs, lcp c.key k = [] := by
  intro c hc
  have := List.find?_eq_none.mp h c hc
  simpa using this

theorem findCompatibleChild_eq_of {cs : List node} {k : List Nat} {n : node}
    (hm : n ∈ cs) (hc : lcp n.key k ≠ [])
    (hu : ∀ d ∈ cs, lcp d.key k ≠ [] → d = n) :
    findCompatibleChild cs k = some n := by
  induction cs with
  | nil => cases hm
  | cons x xs ih =>
    by_cases hx : lcp x.key k ≠ []
    · have : x = n := hu x (by simp) hx
      subst this
      simp [findCompatibleChild, List.find?, hx]
    · have hxn : x ≠ n := fun h => hx (h ▸ hc)
      have hm' : n ∈ xs := by
        cases List.mem_cons.mp hm with
        | inl h => exact absurd h.symm hxn
        | inr h => exact h
      have := ih hm' (fun d hd hcd => hu d (List.mem_cons_of_mem _ hd) hcd)
      simpa [findCompatibleChild, List.find?, hx] using this

theorem mem_insertTail {l : List node} {c x : node} :
    x ∈ insertTail l c ↔ x = c ∨ x ∈ l := by
  induction l with
  | nil => simp [insertTail]
  | cons y ys ih =>
    simp only [insertTail]
    split
    · simp only [List.mem_cons, ih]
      tauto
    · simp

theorem mem_addChild {l : List node} {c x : node} :
    x ∈ addChild l c ↔ x = c ∨ x ∈ l := by
  cases l with
  | nil => simp [addChild]
  | cons f rest =>
    simp only [addChild]
    split
    · simp
    · simp only [List.mem_cons, mem_insertTail]
      tauto

theorem addChild_ne_nil {l : List node} {c : node} : addChild l c ≠ [] := by
  cases l with
  | nil => simp [addChild]
  | cons f rest =>
    simp only [addChild]
    split <;> simp

theorem pairwise_insertTail {R : node → node → Prop} {l : List node} {c : node}
    (hp : l.Pairwise R) (h1 : ∀ y ∈ l, R y c) (h2 : ∀ y ∈ l, R c y) :
    (insertTail l c).Pairwise R := by
  induction l with
  | nil => simpa [insertTail] using True.intro
  | cons x xs ih =>
    rw [List.pairwise_cons] at hp
    simp only [insertTail]
    split
    · rw [List.pairwise_cons]
      constructor
      · intro y hy
        cases mem_insertTail.mp hy with
        | inl h => exact h ▸ h1 x (by simp)
        | inr h => exact hp.1 y h
      · exact ih hp.2 (fun y hy => h1 y (by simp [hy])) (fun y hy => h2 y (by simp [hy]))
    · rw [List.pairwise_cons]
      constructor
      · intro y hy
        cases List.mem_cons.mp hy with
        | inl h => exact h ▸ h2 x (by simp)
        | inr h => exact h2 y (by simp [h])
      · rw [List.pairwise_cons]
        exact ⟨hp.1, hp.2⟩

theorem pairwise_addChild {R : node → node → Prop} {l : List node} {c : node}
    (hp : l.Pairwise R) (h1 : ∀ y ∈ l, R y c) (h2 : ∀ y ∈ l, R c y) :
    (addChild l c).Pairwise R := by
  cases l with
  | nil => simpa [addChild] using True.intro
  | cons f rest =>
    rw [List.pairwise_cons] at hp
    simp only [addChild]
    split
    · rw [List.pairwise_cons]
      constructor
      · intro y hy
        cases List.mem_cons.mp hy with
        | inl h => exact h ▸ h2 f (by simp)
        | inr h => exact h2 y (by simp [h])
      · rw [List.pairwise_cons]
        exact ⟨hp.1, hp.2⟩
    · rw [List.pairwise_cons]
      constructor
      · intro y hy
        cases mem_insertTail.mp hy with
        | inl h => exact h ▸ h1 f (by simp)
        | inr h => exact hp.1 y h
      · exact pairwise_insertTail hp.2 (fun y hy => h1 y (by simp [hy]))
          (fun y hy => h2 y (by simp [hy]))

theorem removeChild_eq_some_of {cs : List node} {x : node}
    (hm : x ∈ cs) : ∃ l, removeChild cs x.key = some l := by
  induction cs with
  | nil => cases hm
  | cons y ys ih =>
    by_cases hy : y.key = x.key
    · exact ⟨ys, by simp [removeChild, hy]⟩
    · have hm' : x ∈ ys := by
        cases List.mem_cons.mp hm with
        | inl h => exact absurd (h ▸ rfl) (h ▸ hy)
        | inr h => exact h
      obtain ⟨l, hl⟩ := ih hm'
      exact ⟨y :: l, by simp [removeChild, hy, hl]⟩

theorem removeChild_sublist {cs l : List node} {k : List Nat}
    (h : removeChild cs k = some l) : l.Sublist cs := by
  induction cs generalizing l with
  | nil => simp [removeChild] at h
  | cons y ys ih =>
    simp only [removeChild] at h
    split at h
    · cases h
      exact List.sublist_cons_self y ys
    · cases hh : removeChild ys k with
      | none => rw [hh] at h; simp at h
      | some l' =>
        rw [hh] at h
        simp at h
        subst h
        exact (ih hh).cons₂ y

/-! ## Lemmas about replaceFirstCompat and node projections -/

theorem node_key_setKey (n : node) (k : List Nat) : (n.setKey k).key = k := by
  cases n; rfl

theorem node_children_setKey (n : node) (k : List Nat) :
    (n.setKey k).children = n.children := by
  cases n; rfl

theorem node_key_setChildren (n : node) (cs : List node) :
    (n.setChildren cs).key = n.key := by
  cases n; rfl

theorem node_children_setChildren (n : node) (cs : List node) :
    (n.setChildren cs).children = cs := by
  cases n; rfl

theorem mem_replaceFirstCompat {cs : List node} {k : List Nat} {n' x : node}
    (h : x ∈ replaceFirstCompat cs k n') : x = n' ∨ x ∈ cs := by
  induction cs with
  | nil => simp [replaceFirstCompat] at h
  | cons c cs ih =>
    simp only [replaceFirstCompat] at h
    split at h
    · cases List.mem_cons.mp h with
      | inl h1 => exact Or.inl h1
      | inr h1 => exact Or.inr (List.mem_cons_of_mem _ h1)
    · cases List.mem_cons.mp h with
      | inl h1 => exact Or.inr (h1 ▸ List.mem_cons_self _ _)
      | inr h1 =>
        cases ih h1 with
        | inl h2 => exact Or.inl h2
        | inr h2 => exact Or.inr (List.mem_cons_of_mem _ h2)

theorem replaceFirstCompat_length (cs : List node) (k : List Nat) (n' : node) :
    (replaceFirstCompat cs k n').length = cs.length := by
  induction cs with
  | nil => rfl
  | cons c cs ih =>
    simp only [replaceFirstCompat]
    split <;> simp [ih]

theorem findCompat_replaceFirstCompat {cs : List node} {k : List Nat} {c n' : node}
    (h : findCompatibleChild cs k = some c) (hn : lcp n'.key k ≠ []) :
    findCompatibleChild (replaceFirstCompat cs k n') k = some n' := by
  induction cs with
  | nil => simp [findCompatibleChild, List.find?] at h
  | cons x xs ih =>
    by_cases hx : lcp x.key k ≠ []
    · simp only [replaceFirstCompat, if_pos hx]
      simp [findCompatibleChild, List.find?, hn]
    · have h' : findCompatibleChild xs k = some c := by
        simpa [findCompatibleChild, List.find?, hx] using h
      simp only [replaceFirstCompat, if_neg hx]
      simpa [findCompatibleChild, List.find?, hx] using ih h'

theorem pairwise_replaceFirstCompat {cs : List node} {k : List Nat} {c n' : node}
    (h : findCompatibleChild cs k = some c) (hkey : n'.key = c.key)
    (hp : cs.Pairwise (fun x y => lcp x.key y.key = [])) :
    (replaceFirstCompat cs k n').Pairwise (fun x y => lcp x.key y.key = []) := by
  induction cs with
  | nil => simp [replaceFirstCompat]
  | cons x xs ih =>
    rw [List.pairwise_cons] at hp
    by_cases hx : lcp x.key k ≠ []
    · have hxc : x = c := by
        have := h
        simp [findCompatibleChild, List.find?, hx] at this
        exact this
      simp only [replaceFirstCompat, if_pos hx]
      rw [List.pairwise_cons]
      refine ⟨fun y hy => ?_, hp.2⟩
      rw [hkey, ← hxc]
      exact hp.1 y hy
    · have h' : findCompatibleChild xs k = some c := by
        simpa [findCompatibleChild, List.find?, hx] using h
      simp only [replaceFirstCompat, if_neg hx]
      rw [List.pairwise_cons]
      refine ⟨fun y hy => ?_, ih h' hp.2⟩
      cases mem_replaceFirstCompat hy with
      | inl h1 =>
        subst h1
        rw [hkey]
        exact hp.1 c (findCompatibleChild_mem h')
      | inr h1 => exact hp.1 y h1

/-! ## Well-formedness lemmas -/

theorem wfN_mk_iff {k : List Nat} {r b : Bool} {d : Option (List Nat)}
    {cs : List node} :
    wfN (node.mk k r b d cs) ↔
      (cs.Pairwise (fun x y => lcp x.key y.key = []) ∧ ∀ c ∈ cs, wfN c) := by
  constructor
  · rintro ⟨hp, hm⟩
    exact ⟨hp, hm⟩
  · rintro ⟨hp, hm⟩
    exact wfN.mk hp hm

theorem wfN_pairwise {n : node} (h : wfN n) :
    n.children.Pairwise (fun x y => lcp x.key y.key = []) := by
  cases n with
  | mk k r b d cs => exact (wfN_mk_iff.mp h).1

theorem wfN_mem {n c : node} (h : wfN n) (hc : c ∈ n.children) : wfN c := by
  cases n with
  | mk k r b d cs => exact (wfN_mk_iff.mp h).2 c hc

theorem wfN_setKey {n : node} (h : wfN n) (k : List Nat) : wfN (n.setKey k) := by
  cases n with
  | mk k0 r b d cs =>
    rw [wfN_mk_iff] at h
    exact wfN_mk_iff.mpr h

theorem wfN_leaf (k : List Nat) (r b : Bool) (d : Option (List Nat)) :
    wfN (node.mk k r b d []) := wfN_mk_iff.mpr (by simp)

/-- In a pairwise prefix-disjoint sibling list, at most one member is
compatible with any probe key (the value-level uniqueness behind
findCompatibleChild). -/
theorem uniq_compat {cs : List node} {k : List Nat} {c d : node}
    (hp : cs.Pairwise (fun x y => lcp x.key y.key = []))
    (hc : c ∈ cs) (hck : lcp c.key k ≠ [])
    (hd : d ∈ cs) (hdk : lcp d.key k ≠ []) : d = c := by
  by_contra hne
  have hsym : Symmetric (fun x y : node => lcp x.key y.key = []) := by
    intro x y hxy
    rw [lcp_comm]
    exact hxy
  have := List.Pairwise.forall hsym hp hd hc hne
  exact lcp_ne_nil_trans hdk hck this

/-- A node with a non-empty key occurring in a pairwise-disjoint list is not
in the removeChild result for its own key. -/
theorem not_mem_removeChild {cs l : List node} {c : node}
    (hp : cs.Pairwise (fun x y => lcp x.key y.key = []))
    (hc : c ∈ cs) (hk : c.key ≠ [])
    (h : removeChild cs c.key = some l) : c ∉ l := by
  induction cs generalizing l with
  | nil => cases hc
  | cons x xs ih =>
    rw [List.pairwise_cons] at hp
    simp only [removeChild] at h
    split at h
    · rename_i hxk
      cases h
      intro hcl
      cases List.mem_cons.mp hc with
      | inl h1 =>
        subst h1
        have := hp.1 c hcl
        rw [lcp_self] at this
        exact hk this
      | inr h1 =>
        have := hp.1 c hcl
        rw [hxk, lcp_self] at this
        exact hk this
    · rename_i hxk
      cases hh : removeChild xs c.key with
      | none => rw [hh] at h; simp at h
      | some l' =>
        rw [hh] at h
        simp at h
        subst h
        have hcx : c ≠ x := fun he => hxk (he ▸ rfl)
        have hc' : c ∈ xs := by
          cases List.mem_cons.mp hc with
          | inl h1 => exact absurd h1 hcx
          | inr h1 => exact h1
        intro hcl
        cases List.mem_cons.mp hcl with
        | inl h1 => exact hcx h1
        | inr h1 => exact ih hp.2 hc' hh h1

/-! ## Blob store lemmas -/

/-- Every entry of the store is keyed by the content hash of its value. -/
def contentAddressed (s : blobStore) : Prop :=
  ∀ e ∈ s, e.1 = makeBlobID e.2.1

/-- Either the value is inline-sized, or the store resolves its blobID to it. -/
def blobHas (s : blobStore) (v : List Nat) : Prop :=
  v.length ≤ inlineValueThreshold ∨ blobGet s (makeBlobID v) = some v

theorem blobPut_fst (s : blobStore) (v : List Nat) :
    (blobPut s v).1 = makeBlobID v := by
  simp only [blobPut]
  split <;> rfl

theorem find?_map_keyFix {s : blobStore} {i : List Nat}
    {f : List Nat × List Nat × Nat → List Nat × List Nat × Nat}
    (hf : ∀ e, (f e).1 = e.1) :
    List.find? (fun e => decide (e.1 = i)) (s.map f) =
      (List.find? (fun e => decide (e.1 = i)) s).map f := by
  induction s with
  | nil => rfl
  | cons e es ih =>
    by_cases he : e.1 = i
    · simp [List.find?, hf, he]
    · simp [List.find?, hf, he, ih]

theorem find?_append_of_none {p : List Nat × List Nat × Nat → Bool}
    {s t : blobStore} (h : List.find? p s = none) :
    List.find? p (s ++ t) = List.find? p t := by
  induction s with
  | nil => rfl
  | cons e es ih =>
    rw [List.find?] at h
    cases hp : p e with
    | true => rw [hp] at h; simp at h
    | false =>
      rw [hp] at h
      simp only [List.cons_append, List.find?, hp]
      exact ih h

theorem contentAddressed_blobPut {s : blobStore} {v : List Nat}
    (h : contentAddressed s) : contentAddressed (blobPut s v).2 := by
  simp only [blobPut]
  split
  · intro e he
    simp only [List.mem_map] at he
    obtain ⟨e0, he0, rfl⟩ := he
    have hca := h e0 he0
    by_cases h0 : e0.1 = makeBlobID v
    · rw [if_pos h0]; exact hca
    · rw [if_neg h0]; exact hca
  · intro e he
    cases List.mem_append.mp he with
    | inl h1 => exact h e h1
    | inr h1 =>
      simp at h1
      subst h1
      rfl

theorem contentAddressed_blobRelease {s : blobStore} {i : List Nat}
    (h : contentAddressed s) : contentAddressed (blobRelease s i) := by
  simp only [blobRelease]
  split
  · exact h
  · split
    · intro e he
      exact h e (List.mem_of_mem_filter he)
    · intro e he
      simp only [List.mem_map] at he
      obtain ⟨e0, he0, rfl⟩ := he
      have hca := h e0 he0
      by_cases h0 : e0.1 = i
      · rw [if_pos h0]; exact hca
      · rw [if_neg h0]; exact hca

theorem blobGet_blobPut {s : blobStore} {v : List Nat}
    (hca : contentAddressed s) :
    blobGet (blobPut s v).2 (makeBlobID v) = some v := by
  simp only [blobPut]
  cases hf : blobFind s (makeBlobID v) with
  | none =>
    simp only [hf, blobGet, blobFind]
    have hn : List.find? (fun e => decide (e.1 = makeBlobID v)) s = none := by
      simp only [blobFind] at hf
      cases hx : List.find? (fun e => decide (e.1 = makeBlobID v)) s with
      | none => rfl
      | some e => rw [hx] at hf; simp at hf
    rw [find?_append_of_none hn]
    simp [List.find?]
  | some e =>
    simp only [hf, blobGet, blobFind]
    rw [find?_map_keyFix (by intro e0; by_cases h0 : e0.1 = makeBlobID v <;> simp [h0])]
    simp only [blobFind] at hf
    cases hx : List.find? (fun e0 => decide (e0.1 = makeBlobID v)) s with
    | none => rw [hx] at hf; simp at hf
    | some e0 =>
      have he0 : e0 ∈ s := List.mem_of_find?_eq_some hx
      have hk : e0.1 = makeBlobID v := by
        have := List.find?_some hx
        simpa using this
      have hv : e0.2.1 = v := by
        have := hca e0 he0
        rw [hk] at this
        simpa [makeBlobID] using this.symm
      simp [hx, hk, hv]

/-! ## setValue lemmas -/

theorem setValue_key (n : node) (bs : blobStore) (v : List Nat) :
    (setValue n bs v).1.key = n.key := by
  simp only [setValue]
  split <;> rfl

theorem setValue_children (n : node) (bs : blobStore) (v : List Nat) :
    (setValue n bs v).1.children = n.children := by
  simp only [setValue]
  split <;> rfl

theorem setValue_isRecord (n : node) (bs : blobStore) (v : List Nat) :
    (setValue n bs v).1.isRecord = true := by
  simp only [setValue]
  split <;> rfl

theorem setValue_wfN {n : node} (h : wfN n) (bs : blobStore) (v : List Nat) :
    wfN (setValue n bs v).1 := by
  cases n with
  | mk k r b d cs =>
    rw [wfN_mk_iff] at h
    simp only [setValue]
    split
    · exact wfN_mk_iff.mpr (by simpa [node.key, node.children] using h)
    · exact wfN_mk_iff.mpr (by simpa [node.key, node.children] using h)

theorem setValue_ca {n : node} {bs : blobStore} (h : contentAddressed bs)
    (v : List Nat) : contentAddressed (setValue n bs v).2 := by
  simp only [setValue]
  have h1 : contentAddressed (if n.blobValue then blobRelease bs (n.data.getD []) else bs) := by
    split
    · exact contentAddressed_blobRelease h
    · exact h
  split
  · exact h1
  · exact contentAddressed_blobPut h1

theorem setValue_roundtrip {n : node} {bs : blobStore} (h : contentAddressed bs)
    (v : List Nat) : nodeValue (setValue n bs v).1 (setValue n bs v).2 = v := by
  simp only [setValue]
  have h1 : contentAddressed (if n.blobValue then blobRelease bs (n.data.getD []) else bs) := by
    split
    · exact contentAddressed_blobRelease h
    · exact h
  split
  · simp [nodeValue, node.data, node.blobValue]
  · have hb := @blobGet_blobPut _ v h1
    simp only [nodeValue, node.data, node.blobValue, blobPut_fst, if_pos]
    show (blobGet (blobPut (if n.blobValue = true then blobRelease bs (n.data.getD []) else bs) v).2
        (makeBlobID v)).getD [] = v
    rw [hb]
    rfl

/-! ## Branch equations for putLoop and findNP -/

theorem putLoop_exact {cur : node} {k : List Nat} {nd : Option (List Nat) × Bool}
    {v : List Nat} {bs : blobStore}
    (h1 : (lcp cur.key k).length = cur.key.length)
    (h2 : (lcp cur.key k).length = k.length) :
    putLoop cur k nd v bs =
      (.inPlace (setValue cur bs v).1 0 (if cur.isRecord then 0 else 1),
        (setValue cur bs v).2) := by
  rw [putLoop]
  rw [if_pos (⟨h1, h2⟩ : (lcp cur.key k).length = cur.key.length ∧ (lcp cur.key k).length = k.length)]

theorem putLoop_parent {cur : node} {k : List Nat} {nd : Option (List Nat) × Bool}
    {v : List Nat} {bs : blobStore}
    (h1 : (lcp cur.key k).length = k.length)
    (h2 : (lcp cur.key k).length < cur.key.length) :
    putLoop cur k nd v bs =
      (.rebuildStrict (node.mk k true nd.2 nd.1
        [cur.setKey (cur.key.drop (lcp cur.key k).length)]) 1 1, bs) := by
  rw [putLoop]
  have hne : ¬((lcp cur.key k).length = cur.key.length ∧ (lcp cur.key k).length = k.length) := by
    intro hx
    omega
  rw [if_neg hne]
  rw [if_pos (⟨h1, h2⟩ : (lcp cur.key k).length = k.length ∧ (lcp cur.key k).length < cur.key.length)]

theorem putLoop_split {cur : node} {k : List Nat} {nd : Option (List Nat) × Bool}
    {v : List Nat} {bs : blobStore}
    (h1 : 0 < (lcp cur.key k).length)
    (h2 : (lcp cur.key k).length < cur.key.length)
    (h3 : ¬(lcp cur.key k).length = k.length) :
    putLoop cur k nd v bs =
      (.rebuildLoose (node.mk (lcp cur.key k) false false none
        (addChild (addChild [] (cur.setKey (cur.key.drop (lcp cur.key k).length)))
          (node.mk (k.drop (lcp cur.key k).length) true nd.2 nd.1 []))) 2 1, bs) := by
  rw [putLoop]
  have hne1 : ¬((lcp cur.key k).length = cur.key.length ∧ (lcp cur.key k).length = k.length) := by
    intro hx
    omega
  have hne2 : ¬((lcp cur.key k).length = k.length ∧ (lcp cur.key k).length < cur.key.length) := by
    intro hx
    exact h3 hx.1
  rw [if_neg hne1, if_neg hne2]
  rw [if_pos (⟨h1, h2⟩ : 0 < (lcp cur.key k).length ∧ (lcp cur.key k).length < cur.key.length)]

theorem putLoop_descend_guards {cur : node} {k : List Nat}
    (hc : lcp cur.key k ≠ [])
    (hg1 : ¬((lcp cur.key k).length = cur.key.length ∧ (lcp cur.key k).length = k.length))
    (hg3 : ¬(0 < (lcp cur.key k).length ∧ (lcp cur.key k).length < cur.key.length)) :
    (lcp cur.key k).length = cur.key.length ∧ (lcp cur.key k).length < k.length := by
  have hp1 : 0 < (lcp cur.key k).length := by
    cases hl : lcp cur.key k with
    | nil => exact absurd hl hc
    | cons x xs => simp [hl]
  have hle1 := lcp_length_le_left cur.key k
  have hle2 := lcp_length_le_right cur.key k
  omega

theorem putLoop_descend_none {cur : node} {k : List Nat} {nd : Option (List Nat) × Bool}
    {v : List Nat} {bs : blobStore}
    (hg1 : ¬((lcp cur.key k).length = cur.key.length ∧ (lcp cur.key k).length = k.length))
    (hg2 : ¬((lcp cur.key k).length = k.length ∧ (lcp cur.key k).length < cur.key.length))
    (hg3 : ¬(0 < (lcp cur.key k).length ∧ (lcp cur.key k).length < cur.key.length))
    (h4 : findCompatibleChild cur.children (k.drop (lcp cur.key k).length) = none) :
    putLoop cur k nd v bs =
      (.inPlace (cur.setChildren (addChild cur.children
        (node.mk (k.drop (lcp cur.key k).length) true nd.2 nd.1 []))) 1 1, bs) := by
  rw [putLoop]
  rw [if_neg hg1, if_neg hg2, if_neg hg3]
  split
  · rfl
  · rename_i c' hq
    rw [h4] at hq
    cases hq

theorem putLoop_descend_some_ok {cur : node} {k : List Nat} {nd : Option (List Nat) × Bool}
    {v : List Nat} {bs bs2 : blobStore} {c : node} {t : node × Nat × Nat}
    (hg1 : ¬((lcp cur.key k).length = cur.key.length ∧ (lcp cur.key k).length = k.length))
    (hg2 : ¬((lcp cur.key k).length = k.length ∧ (lcp cur.key k).length < cur.key.length))
    (hg3 : ¬(0 < (lcp cur.key k).length ∧ (lcp cur.key k).length < cur.key.length))
    (h4 : findCompatibleChild cur.children (k.drop (lcp cur.key k).length) = some c)
    (h5 : spliceChild cur (k.drop (lcp cur.key k).length) c
      (putLoop c (k.drop (lcp cur.key k).length) nd v bs) = (.ok t, bs2)) :
    putLoop cur k nd v bs = (.inPlace t.1 t.2.1 t.2.2, bs2) := by
  rw [putLoop]
  rw [if_neg hg1, if_neg hg2, if_neg hg3]
  split
  · rename_i hq
    rw [h4] at hq
    cases hq
  · rename_i c' hq
    injection h4.symm.trans hq with hcc
    subst hcc
    simp only [h5]

theorem putLoop_descend_some_error {cur : node} {k : List Nat} {nd : Option (List Nat) × Bool}
    {v : List Nat} {bs bs2 : blobStore} {c : node} {e : GoErr}
    (hg1 : ¬((lcp cur.key k).length = cur.key.length ∧ (lcp cur.key k).length = k.length))
    (hg2 : ¬((lcp cur.key k).length = k.length ∧ (lcp cur.key k).length < cur.key.length))
    (hg3 : ¬(0 < (lcp cur.key k).length ∧ (lcp cur.key k).length < cur.key.length))
    (h4 : findCompatibleChild cur.children (k.drop (lcp cur.key k).length) = some c)
    (h5 : spliceChild cur (k.drop (lcp cur.key k).length) c
      (putLoop c (k.drop (lcp cur.key k).length) nd v bs) = (.error e, bs2)) :
    putLoop cur k nd v bs = (.fail e, bs2) := by
  rw [putLoop]
  rw [if_neg hg1, if_neg hg2, if_neg hg3]
  split
  · rename_i hq
    rw [h4] at hq
    cases hq
  · rename_i c' hq
    injection h4.symm.trans hq with hcc
    subst hcc
    simp only [h5]

theorem findNP_found {cur : node} {k : List Nat} {par : Option node}
    (h0 : ¬(lcp cur.key k = [] ∧ par.isSome))
    (h1 : (lcp cur.key k).length = cur.key.length)
    (h2 : (lcp cur.key k).length = k.length) :
    findNP cur k par = .ok (cur, par) := by
  rw [findNP]
  rw [if_neg (by simpa using h0)]
  rw [if_neg (by simp [h1])]
  rw [if_pos h2]

theorem findNP_descend {cur : node} {k : List Nat} {par : Option node} {c : node}
    (h0 : ¬(lcp cur.key k = [] ∧ par.isSome))
    (h1 : (lcp cur.key k).length = cur.key.length)
    (h2 : ¬(lcp cur.key k).length = k.length)
    (h4 : findCompatibleChild cur.children (k.drop (lcp cur.key k).length) = some c) :
    findNP cur k par = findNP c (k.drop (lcp cur.key k).length) (some cur) := by
  have hne : ¬cur.children.isEmpty = true := by
    have hm := (findCompatibleChild_some h4).1
    cases hcs : cur.children with
    | nil => rw [hcs] at hm; cases hm
    | cons x xs => simp [hcs]
  rw [findNP]
  rw [if_neg (by simpa using h0)]
  rw [if_neg (by simp [h1])]
  rw [if_neg h2, if_neg hne]
  split
  · rename_i hq
    rw [h4] at hq
    cases hq
  · rename_i c' hq
    injection h4.symm.trans hq with hcc
    subst hcc
    rfl

/-! ## The master lemma for the Put loop -/

/-- The (data, blobValue) fields carried for the node being inserted are
exactly what the top-level setValue produced for value `v`. -/
def ndGood (nd : Option (List Nat) × Bool) (v : List Nat) : Prop :=
  (v.length ≤ inlineValueThreshold ∧ nd = (some v, false)) ∨
  (inlineValueThreshold < v.length ∧ nd = (some (makeBlobID v), true))

/-- After the subtree update, a lookup of `k` from this subtree finds a
record node resolving to `v`, whatever the parent pointer is. -/
def getOK (n' : node) (k v : List Nat) (bs : blobStore) : Prop :=
  ∀ par : Option node, ∃ m : node, ∃ pr : Option node,
    findNP n' k par = .ok (m, pr) ∧ m.isRecord = true ∧ nodeValue m bs = v

theorem nodeValue_nd {nd : Option (List Nat) × Bool} {v : List Nat}
    {bs : blobStore} (hnd : ndGood nd v) (hbs : blobHas bs v)
    (k : List Nat) (r : Bool) (cs : List node) :
    nodeValue (node.mk k r nd.2 nd.1 cs) bs = v := by
  cases hnd with
  | inl h =>
    rw [h.2]
    simp [nodeValue, node.data, node.blobValue]
  | inr h =>
    rw [h.2]
    cases hbs with
    | inl h1 => omega
    | inr h1 => simp [nodeValue, node.data, node.blobValue, h1]

theorem mkNew_getOK {k v : List Nat} {nd : Option (List Nat) × Bool}
    {bs : blobStore} (hk : k ≠ []) (hnd : ndGood nd v) (hbs : blobHas bs v)
    (cs : List node) : getOK (node.mk k true nd.2 nd.1 cs) k v bs := by
  intro par
  refine ⟨node.mk k true nd.2 nd.1 cs, par, ?_, rfl, nodeValue_nd hnd hbs k true cs⟩
  have hkey : (node.mk k true nd.2 nd.1 cs).key = k := rfl
  have hlcp : lcp k k = k := lcp_self k
  refine findNP_found ?_ ?_ ?_
  · rw [hkey, hlcp]
    intro hx
    exact hk hx.1
  · rw [hkey, hlcp]
  · rw [hkey, hlcp]

/-- The parent-side conclusion: once the updated child list `cs'` is in
place, the parent node keeps its key, stays well-formed and routes a lookup
of `k` to the updated child. -/
theorem parent_step {cur : node} {k v : List Nat} {bs' : blobStore}
    {cs' : List node} {n' : node}
    (hpl : (lcp cur.key k).length = cur.key.length)
    (hlt : (lcp cur.key k).length < k.length)
    (hc : lcp cur.key k ≠ [])
    (hwp : cs'.Pairwise (fun x y => lcp x.key y.key = []))
    (hwm : ∀ x ∈ cs', wfN x)
    (hfind : findCompatibleChild cs' (k.drop (lcp cur.key k).length) = some n')
    (hget : getOK n' (k.drop (lcp cur.key k).length) v bs') :
    (cur.setChildren cs').key = cur.key ∧ wfN (cur.setChildren cs') ∧
      getOK (cur.setChildren cs') k v bs' := by
  refine ⟨node_key_setChildren cur cs', ?_, ?_⟩
  · cases cur with
    | mk k0 r0 b0 d0 cs0 => exact wfN_mk_iff.mpr ⟨hwp, hwm⟩
  · intro par
    have hkey := node_key_setChildren cur cs'
    have hch := node_children_setChildren cur cs'
    have hne : ¬(cur.setChildren cs').children.isEmpty = true := by
      rw [hch]
      have := findCompatibleChild_mem hfind
      cases cs' with
      | nil => cases this
      | cons x xs => simp
    have hd : findNP (cur.setChildren cs') k par =
        findNP n' (k.drop (lcp (cur.setChildren cs').key k).length) (some (cur.setChildren cs')) := by
      refine findNP_descend ?_ ?_ ?_ ?_
      · rw [hkey]
        intro hx
        exact hc hx.1
      · rw [hkey, hpl]
      · rw [hkey]
        omega
      · rw [hkey, hch]
        exact hfind
    rw [hkey] at hd
    obtain ⟨m, pr, hm1, hm2, hm3⟩ := hget (some (cur.setChildren cs'))
    exact ⟨m, pr, by rw [hd, hm1], hm2, hm3⟩

theorem spliceChild_inPlace (cur : node) (k2 : List Nat) (c n' : node)
    (dn dr : Nat) (bs' : blobStore) :
    spliceChild cur k2 c (.inPlace n' dn dr, bs') =
      (.ok (cur.setChildren (replaceFirstCompat cur.children k2 n'), dn, dr), bs') := rfl

theorem spliceChild_rebuildStrict {cur : node} {c : node} {l : List node}
    (k2 : List Nat) (n' : node) (dn dr : Nat) (bs' : blobStore)
    (hl : removeChild cur.children c.key = some l) :
    spliceChild cur k2 c (.rebuildStrict n' dn dr, bs') =
      (.ok (cur.setChildren (addChild l n'), dn, dr), bs') := by
  simp only [spliceChild, hl]

theorem spliceChild_rebuildLoose {cur : node} {c : node} {l : List node}
    (k2 : List Nat) (n' : node) (dn dr : Nat) (bs' : blobStore)
    (hl : removeChild cur.children c.key = some l) :
    spliceChild cur k2 c (.rebuildLoose n' dn dr, bs') =
      (.ok (cur.setChildren (addChild l n'), dn, dr), bs') := by
  simp only [spliceChild, hl, Option.getD_some]

theorem drop_ne_nil {l : List Nat} {n : Nat} (h : n < l.length) : l.drop n ≠ [] := by
  intro hx
  have hlen : (l.drop n).length = l.length - n := List.length_drop n l
  rw [hx] at hlen
  simp at hlen
  omega

theorem lcp_disjoint_of_via {d c k2 : List Nat}
    (hdc : lcp d c = []) (hck : lcp c k2 ≠ []) : lcp d (lcp c k2) = [] := by
  by_contra hx
  obtain ⟨y, cs1, ks1, hcy, hky⟩ := lcp_ne_nil_iff.mp hck
  obtain ⟨x, ds1, ls1, hdx, hlx⟩ := lcp_ne_nil_iff.mp hx
  have hxy : x = y := by
    rw [hcy, hky] at hlx
    rw [lcp_cons_cons] at hlx
    simp at hlx
    exact hlx.1.symm
  subst hxy
  rw [hdx, hcy, lcp_cons_cons] at hdc
  simp at hdc

/-- Inserting a node that is the only member compatible with the probe into
a pairwise-disjoint list of incompatible, disjoint siblings. -/
theorem insert_package {l : List node} {k2 : List Nat} {n' : node}
    (hp : l.Pairwise (fun x y => lcp x.key y.key = []))
    (hwm : ∀ x ∈ l, wfN x) (hwn : wfN n')
    (hcompat : lcp n'.key k2 ≠ [])
    (hinc : ∀ d ∈ l, lcp d.key k2 = [])
    (hdisj : ∀ d ∈ l, lcp d.key n'.key = []) :
    (addChild l n').Pairwise (fun x y => lcp x.key y.key = []) ∧
      (∀ x ∈ addChild l n', wfN x) ∧
      findCompatibleChild (addChild l n') k2 = some n' := by
  refine ⟨?_, ?_, ?_⟩
  · exact pairwise_addChild hp hdisj (fun d hd => by rw [lcp_comm]; exact hdisj d hd)
  · intro x hx
    cases mem_addChild.mp hx with
    | inl h => exact h ▸ hwn
    | inr h => exact hwm x h
  · refine findCompatibleChild_eq_of (mem_addChild.mpr (Or.inl rfl)) hcompat ?_
    intro d hd hcd
    cases mem_addChild.mp hd with
    | inl h => exact h
    | inr h => exact absurd (hinc d h) hcd

/-- Removing the unique compatible child from a pairwise-disjoint child
list: the remainder is disjoint from the probe key and from the removed
child's key. -/
theorem removal_package {cs l : List node} {k2 : List Nat} {c : node}
    (hp : cs.Pairwise (fun x y => lcp x.key y.key = []))
    (h4 : findCompatibleChild cs k2 = some c)
    (hl : removeChild cs c.key = some l) :
    (∀ d ∈ l, lcp d.key k2 = []) ∧ l.Pairwise (fun x y => lcp x.key y.key = []) ∧
      (∀ x ∈ l, x ∈ cs) ∧ (∀ d ∈ l, lcp d.key c.key = []) := by
  have hcm := findCompatibleChild_some h4
  have hsub := removeChild_sublist hl
  have hck : c.key ≠ [] := by
    intro hx
    rw [hx, lcp_nil_left] at hcm
    exact hcm.2 rfl
  have hnot := not_mem_removeChild hp hcm.1 hck hl
  have hmem : ∀ x ∈ l, x ∈ cs := fun x hx => hsub.subset hx
  have hsym : Symmetric (fun x y : node => lcp x.key y.key = []) := by
    intro x y hxy
    rw [lcp_comm]
    exact hxy
  have hdc : ∀ d ∈ l, lcp d.key c.key = [] := by
    intro d hd
    have hdne : d ≠ c := fun hx => hnot (hx ▸ hd)
    exact List.Pairwise.forall hsym hp (hmem d hd) hcm.1 hdne
  refine ⟨?_, hp.sublist hsub, hmem, hdc⟩
  intro d hd
  by_contra hx
  exact hnot ((uniq_compat hp hcm.1 hcm.2 (hmem d hd) hx) ▸ hd)

/-- The master lemma: below the root, a Put-loop step on a well-formed
subtree compatible with the remaining non-empty key yields a well-formed
replacement subtree in which the key resolves to the stored value, with the
replacement's key determined by the outcome kind. -/
theorem putLoop_master :
    ∀ (N : Nat) (cur : node), sizeOf cur ≤ N →
    ∀ (k : List Nat) (nd : Option (List Nat) × Bool) (v : List Nat) (bs : blobStore),
    wfN cur → k ≠ [] → lcp cur.key k ≠ [] → ndGood nd v → blobHas bs v →
    contentAddressed bs →
    (∃ n' dn dr bs', putLoop cur k nd v bs = (.inPlace n' dn dr, bs') ∧
       n'.key = cur.key ∧ wfN n' ∧ getOK n' k v bs' ∧ contentAddressed bs') ∨
    (∃ n' dn dr bs', putLoop cur k nd v bs = (.rebuildStrict n' dn dr, bs') ∧
       n'.key = k ∧ wfN n' ∧ getOK n' k v bs' ∧ contentAddressed bs') ∨
    (∃ n' dn dr bs', putLoop cur k nd v bs = (.rebuildLoose n' dn dr, bs') ∧
       n'.key = lcp cur.key k ∧ wfN n' ∧ getOK n' k v bs' ∧ contentAddressed bs') := by
  intro N
  induction N with
  | zero =>
    intro cur hsz
    exfalso
    cases cur with
    | mk k0 r0 b0 d0 cs0 =>
      simp [node.mk.sizeOf_spec] at hsz
  | succ N ih =>
    intro cur hsz k nd v bs hwf hk hc hnd hbs hca
    by_cases hb1 : (lcp cur.key k).length = cur.key.length ∧ (lcp cur.key k).length = k.length
    · left
      refine ⟨(setValue cur bs v).1, 0, (if cur.isRecord then 0 else 1), (setValue cur bs v).2,
        putLoop_exact hb1.1 hb1.2, setValue_key cur bs v, setValue_wfN hwf bs v, ?_,
        setValue_ca hca v⟩
      intro par
      refine ⟨(setValue cur bs v).1, par, ?_, setValue_isRecord cur bs v,
        setValue_roundtrip hca v⟩
      refine findNP_found ?_ ?_ ?_
      · rw [setValue_key]
        intro hx
        exact hc hx.1
      · rw [setValue_key]
        exact hb1.1
      · rw [setValue_key]
        exact hb1.2
    · by_cases hb2 : (lcp cur.key k).length = k.length ∧ (lcp cur.key k).length < cur.key.length
      · right; left
        refine ⟨node.mk k true nd.2 nd.1 [cur.setKey (cur.key.drop (lcp cur.key k).length)],
          1, 1, bs, putLoop_parent hb2.1 hb2.2, rfl, ?_, mkNew_getOK hk hnd hbs _, hca⟩
        refine wfN_mk_iff.mpr ⟨List.pairwise_singleton _ _, ?_⟩
        intro c0 hc0
        have : c0 = cur.setKey (cur.key.drop (lcp cur.key k).length) := by simpa using hc0
        exact this ▸ wfN_setKey hwf _
      · by_cases hb3 : 0 < (lcp cur.key k).length ∧ (lcp cur.key k).length < cur.key.length
        · right; right
          have h3 : ¬(lcp cur.key k).length = k.length := fun hx => hb2 ⟨hx, hb3.2⟩
          have hlt : (lcp cur.key k).length < k.length :=
            lt_of_le_of_ne (lcp_length_le_right cur.key k) h3
          have hk2 : k.drop (lcp cur.key k).length ≠ [] := drop_ne_nil hlt
          have hdd := lcp_drop_drop cur.key k
          refine ⟨node.mk (lcp cur.key k) false false none
              (addChild (addChild [] (cur.setKey (cur.key.drop (lcp cur.key k).length)))
                (node.mk (k.drop (lcp cur.key k).length) true nd.2 nd.1 [])),
            2, 1, bs, putLoop_split hb3.1 hb3.2 h3, rfl, ?_, ?_, hca⟩
          · refine wfN_mk_iff.mpr ⟨?_, ?_⟩
            · refine pairwise_addChild (List.pairwise_singleton _ _) ?_ ?_
              · intro d hd
                have hd' : d = cur.setKey (cur.key.drop (lcp cur.key k).length) := by
                  simpa [addChild] using hd
                subst hd'
                show lcp (cur.setKey (cur.key.drop (lcp cur.key k).length)).key
                  (node.mk (k.drop (lcp cur.key k).length) true nd.2 nd.1 []).key = []
                rw [node_key_setKey]
                exact hdd
              · intro d hd
                have hd' : d = cur.setKey (cur.key.drop (lcp cur.key k).length) := by
                  simpa [addChild] using hd
                subst hd'
                show lcp (node.mk (k.drop (lcp cur.key k).length) true nd.2 nd.1 []).key
                  (cur.setKey (cur.key.drop (lcp cur.key k).length)).key = []
                rw [node_key_setKey, lcp_comm]
                exact hdd
            · intro x hx
              cases mem_addChild.mp hx with
              | inl h => exact h ▸ wfN_leaf _ _ _ _
              | inr h =>
                have hx' : x = cur.setKey (cur.key.drop (lcp cur.key k).length) := by
                  simpa [addChild] using h
                exact hx' ▸ wfN_setKey hwf _
          · -- getOK of the split node
            intro par
            have hll : lcp (lcp cur.key k) k = lcp cur.key k := lcp_lcp_right cur.key k
            have hpne : lcp cur.key k ≠ [] := hc
            have hfind : findCompatibleChild
                (addChild (addChild [] (cur.setKey (cur.key.drop (lcp cur.key k).length)))
                  (node.mk (k.drop (lcp cur.key k).length) true nd.2 nd.1 []))
                (k.drop (lcp cur.key k).length) =
                some (node.mk (k.drop (lcp cur.key k).length) true nd.2 nd.1 []) := by
              refine findCompatibleChild_eq_of (mem_addChild.mpr (Or.inl rfl)) ?_ ?_
              · show lcp (k.drop (lcp cur.key k).length) (k.drop (lcp cur.key k).length) ≠ []
                rw [lcp_self]
                exact hk2
              · intro d hd hcd
                cases mem_addChild.mp hd with
                | inl h => exact h
                | inr h =>
                  exfalso
                  have hd' : d = cur.setKey (cur.key.drop (lcp cur.key k).length) := by
                    simpa [addChild] using h
                  subst hd'
                  rw [node_key_setKey] at hcd
                  exact hcd hdd
            have hstep0 := @findNP_descend
              (node.mk (lcp cur.key k) false false none
                (addChild (addChild [] (cur.setKey (cur.key.drop (lcp cur.key k).length)))
                  (node.mk (k.drop (lcp cur.key k).length) true nd.2 nd.1 [])))
              k par
              (node.mk (k.drop (lcp cur.key k).length) true nd.2 nd.1 [])
              (by show ¬(lcp (lcp cur.key k) k = [] ∧ _)
                  rw [hll]
                  intro hx
                  exact hpne hx.1)
              (by show (lcp (lcp cur.key k) k).length = (lcp cur.key k).length
                  rw [hll])
              (by show ¬(lcp (lcp cur.key k) k).length = k.length
                  rw [hll]
                  exact h3)
              (by show findCompatibleChild _ (k.drop (lcp (lcp cur.key k) k).length) = _
                  rw [hll]
                  exact hfind)
            have hstep1 : findNP (node.mk (lcp cur.key k) false false none
                (addChild (addChild [] (cur.setKey (cur.key.drop (lcp cur.key k).length)))
                  (node.mk (k.drop (lcp cur.key k).length) true nd.2 nd.1 []))) k par =
                findNP (node.mk (k.drop (lcp cur.key k).length) true nd.2 nd.1 [])
                  (k.drop (lcp (lcp cur.key k) k).length)
                  (some (node.mk (lcp cur.key k) false false none
                    (addChild (addChild [] (cur.setKey (cur.key.drop (lcp cur.key k).length)))
                      (node.mk (k.drop (lcp cur.key k).length) true nd.2 nd.1 [])))) := hstep0
            rw [hll] at hstep1
            obtain ⟨m, pr, hm1, hm2, hm3⟩ :=
              mkNew_getOK hk2 hnd hbs ([] : List node)
                (some (node.mk (lcp cur.key k) false false none
                  (addChild (addChild [] (cur.setKey (cur.key.drop (lcp cur.key k).length)))
                    (node.mk (k.drop (lcp cur.key k).length) true nd.2 nd.1 []))))
            refine ⟨m, pr, ?_, hm2, hm3⟩
            rw [hstep1]
            exact hm1
        · -- descend into a child
          obtain ⟨hpl, hlt⟩ := putLoop_descend_guards hc hb1 hb3
          have hk2 : k.drop (lcp cur.key k).length ≠ [] := drop_ne_nil hlt
          cases h4 : findCompatibleChild cur.children (k.drop (lcp cur.key k).length) with
          | none =>
            left
            have heq := @putLoop_descend_none cur k nd v bs hb1 hb2 hb3 h4
            have hinc := findCompatibleChild_none h4
            have pkg := insert_package
              (wfN_pairwise hwf) (fun x hx => wfN_mem hwf hx)
              (wfN_leaf (k.drop (lcp cur.key k).length) true nd.2 nd.1)
              (by show lcp (k.drop (lcp cur.key k).length) (k.drop (lcp cur.key k).length) ≠ []
                  rw [lcp_self]; exact hk2)
              hinc hinc
            have ps := parent_step hpl hlt hc pkg.1 pkg.2.1 pkg.2.2
              (mkNew_getOK hk2 hnd hbs ([] : List node))
            exact ⟨_, 1, 1, bs, heq, ps.1, ps.2.1, ps.2.2, hca⟩
          | some c =>
            have hcm := findCompatibleChild_some h4
            have hszc : sizeOf c ≤ N := by
              have := sizeOf_lt_of_mem_children hcm.1
              omega
            have IH := ih c hszc (k.drop (lcp cur.key k).length) nd v bs
              (wfN_mem hwf hcm.1) hk2 hcm.2 hnd hbs hca
            rcases IH with ⟨n', dn, dr, bs', hpe, hkey, hwn, hget, hca'⟩ |
              ⟨n', dn, dr, bs', hpe, hkey, hwn, hget, hca'⟩ |
              ⟨n', dn, dr, bs', hpe, hkey, hwn, hget, hca'⟩
            · -- child updated in place
              left
              have heq := putLoop_descend_some_ok hb1 hb2 hb3 h4
                (by rw [hpe]; exact spliceChild_inPlace cur _ c n' dn dr bs')
              have hfind2 := findCompat_replaceFirstCompat h4 (by rw [hkey]; exact hcm.2)
              have hwp2 := pairwise_replaceFirstCompat h4 hkey (wfN_pairwise hwf)
              have hwm2 : ∀ x ∈ replaceFirstCompat cur.children
                  (k.drop (lcp cur.key k).length) n', wfN x := by
                intro x hx
                cases mem_replaceFirstCompat hx with
                | inl h => exact h ▸ hwn
                | inr h => exact wfN_mem hwf h
              have ps := parent_step hpl hlt hc hwp2 hwm2 hfind2 hget
              exact ⟨_, dn, dr, bs', heq, ps.1, ps.2.1, ps.2.2, hca'⟩
            · -- child replaced by the incoming node as its parent
              left
              obtain ⟨l, hl⟩ := removeChild_eq_some_of hcm.1
              obtain ⟨hinc, hlp, hlm, hdc⟩ := removal_package (wfN_pairwise hwf) h4 hl
              have heq := putLoop_descend_some_ok hb1 hb2 hb3 h4
                (by rw [hpe]; exact spliceChild_rebuildStrict _ n' dn dr bs' hl)
              have pkg := insert_package hlp (fun x hx => wfN_mem hwf (hlm x hx)) hwn
                (by rw [hkey, lcp_self]; exact hk2)
                hinc
                (by intro d hd; rw [hkey]; exact hinc d hd)
              have ps := parent_step hpl hlt hc pkg.1 pkg.2.1 pkg.2.2 hget
              exact ⟨_, dn, dr, bs', heq, ps.1, ps.2.1, ps.2.2, hca'⟩
            · -- child split under an intermediate parent
              left
              obtain ⟨l, hl⟩ := removeChild_eq_some_of hcm.1
              obtain ⟨hinc, hlp, hlm, hdc⟩ := removal_package (wfN_pairwise hwf) h4 hl
              have heq := putLoop_descend_some_ok hb1 hb2 hb3 h4
                (by rw [hpe]; exact spliceChild_rebuildLoose _ n' dn dr bs' hl)
              have pkg := insert_package hlp (fun x hx => wfN_mem hwf (hlm x hx)) hwn
                (by rw [hkey, lcp_lcp_right]; exact hcm.2)
                hinc
                (by intro d hd
                    rw [hkey]
                    exact lcp_disjoint_of_via (hdc d hd) hcm.2)
              have ps := parent_step hpl hlt hc pkg.1 pkg.2.1 pkg.2.2 hget
              exact ⟨_, dn, dr, bs', heq, ps.1, ps.2.1, ps.2.2, hca'⟩

/-! ## Arc-level lemmas -/

theorem setKey_eq_mk (n : node) (x : List Nat) :
    n.setKey x = node.mk x n.isRecord n.blobValue n.data n.children := by
  cases n
  rfl

theorem setValue_nd (n : node) (bs : blobStore) (v : List Nat) :
    ndGood ((setValue n bs v).1.data, (setValue n bs v).1.blobValue) v := by
  simp only [setValue]
  split
  · left
    refine ⟨by omega, ?_⟩
    simp [node.data, node.blobValue]
  · right
    refine ⟨by omega, ?_⟩
    simp [node.data, node.blobValue, blobPut_fst]

theorem setValue_blobHas {n : node} {bs : blobStore} (h : contentAddressed bs)
    (v : List Nat) : blobHas (setValue n bs v).2 v := by
  simp only [setValue]
  have h1 : contentAddressed (if n.blobValue then blobRelease bs (n.data.getD []) else bs) := by
    split
    · exact contentAddressed_blobRelease h
    · exact h
  split
  · left
    omega
  · right
    exact blobGet_blobPut h1

theorem emptyb_some {a : Arc} {r : node} (h : a.root = some r) :
    a.emptyb = false := by
  simp [Arc.emptyb, h]

/-- The lookup payload a root-level Get needs: the root subtree resolves the
key to a record holding the value. -/
def getOK0 (n' : node) (k v : List Nat) (bs : blobStore) : Prop :=
  ∃ m : node, ∃ pr : Option node,
    findNP n' k none = .ok (m, pr) ∧ m.isRecord = true ∧ nodeValue m bs = v

theorem getOK_to_getOK0 {n' : node} {k v : List Nat} {bs : blobStore}
    (h : getOK n' k v bs) : getOK0 n' k v bs := h none

theorem get_of_getOK0 {a : Arc} {r : node} {k v : List Nat}
    (hr : a.root = some r) (hg : getOK0 r k v a.blobs) :
    Arc.Get a (some k) = .ok v := by
  obtain ⟨m, pr, h1, h2, h3⟩ := hg
  simp only [Arc.Get]
  rw [if_neg (by simp [emptyb_some hr])]
  simp only [hr, h1, h2]
  simp [h3]

/-- The root-level analogue of parent_step: with the parent pointer nil, the
no-prefix guard of findNP cannot fire, so the root's key need not share a
prefix with the probe. -/
theorem parent_step_root {cur : node} {k v : List Nat} {bs' : blobStore}
    {cs' : List node} {n' : node}
    (hpl : (lcp cur.key k).length = cur.key.length)
    (hlt : (lcp cur.key k).length < k.length)
    (hfind : findCompatibleChild cs' (k.drop (lcp cur.key k).length) = some n')
    (hget : getOK n' (k.drop (lcp cur.key k).length) v bs') :
    getOK0 (cur.setChildren cs') k v bs' := by
  have hkey := node_key_setChildren cur cs'
  have hch := node_children_setChildren cur cs'
  have hne : ¬(cur.setChildren cs').children.isEmpty = true := by
    rw [hch]
    have := findCompatibleChild_mem hfind
    cases cs' with
    | nil => cases this
    | cons x xs => simp
  have hd : findNP (cur.setChildren cs') k none =
      findNP n' (k.drop (lcp (cur.setChildren cs').key k).length)
        (some (cur.setChildren cs')) := by
    refine findNP_descend ?_ ?_ ?_ ?_
    · simp
    · rw [hkey, hpl]
    · rw [hkey]
      omega
    · rw [hkey, hch]
      exact hfind
  rw [hkey] at hd
  obtain ⟨m, pr, hm1, hm2, hm3⟩ := hget (some (cur.setChildren cs'))
  exact ⟨m, pr, by rw [hd, hm1], hm2, hm3⟩

/-- Descending into the unique compatible child and splicing the outcome
back: the splice always succeeds and yields a child list that is disjoint,
well-formed and routes the remaining key to a record resolving to `v`. -/
theorem child_splice {cur : node} {k2 v : List Nat} {nd : Option (List Nat) × Bool}
    {bs : blobStore} {c : node}
    (hwf : wfN cur) (hk2 : k2 ≠ [])
    (h4 : findCompatibleChild cur.children k2 = some c)
    (hnd : ndGood nd v) (hbs : blobHas bs v) (hca : contentAddressed bs) :
    ∃ cs' dn dr bs', spliceChild cur k2 c (putLoop c k2 nd v bs) =
        (.ok (cur.setChildren cs', dn, dr), bs') ∧
      cs'.Pairwise (fun x y => lcp x.key y.key = []) ∧ (∀ x ∈ cs', wfN x) ∧
      (∃ n', findCompatibleChild cs' k2 = some n' ∧ getOK n' k2 v bs') ∧
      contentAddressed bs' := by
  have hcm := findCompatibleChild_some h4
  have IH := putLoop_master (sizeOf c) c le_rfl k2 nd v bs
    (wfN_mem hwf hcm.1) hk2 hcm.2 hnd hbs hca
  rcases IH with ⟨n', dn, dr, bs', hpe, hkey, hwn, hget, hca'⟩ |
    ⟨n', dn, dr, bs', hpe, hkey, hwn, hget, hca'⟩ |
    ⟨n', dn, dr, bs', hpe, hkey, hwn, hget, hca'⟩
  · refine ⟨replaceFirstCompat cur.children k2 n', dn, dr, bs', ?_, ?_, ?_, ⟨n', ?_, hget⟩, hca'⟩
    · rw [hpe]
      exact spliceChild_inPlace cur k2 c n' dn dr bs'
    · exact pairwise_replaceFirstCompat h4 hkey (wfN_pairwise hwf)
    · intro x hx
      cases mem_replaceFirstCompat hx with
      | inl h => exact h ▸ hwn
      | inr h => exact wfN_mem hwf h
    · exact findCompat_replaceFirstCompat h4 (by rw [hkey]; exact hcm.2)
  · obtain ⟨l, hl⟩ := removeChild_eq_some_of hcm.1
    obtain ⟨hinc, hlp, hlm, hdc⟩ := removal_package (wfN_pairwise hwf) h4 hl
    have pkg := insert_package hlp (fun x hx => wfN_mem hwf (hlm x hx)) hwn
      (by rw [hkey, lcp_self]; exact hk2)
      hinc
      (by intro d hd; rw [hkey]; exact hinc d hd)
    refine ⟨addChild l n', dn, dr, bs', ?_, pkg.1, pkg.2.1, ⟨n', pkg.2.2, hget⟩, hca'⟩
    rw [hpe]
    exact spliceChild_rebuildStrict _ n' dn dr bs' hl
  · obtain ⟨l, hl⟩ := removeChild_eq_some_of hcm.1
    obtain ⟨hinc, hlp, hlm, hdc⟩ := removal_package (wfN_pairwise hwf) h4 hl
    have pkg := insert_package hlp (fun x hx => wfN_mem hwf (hlm x hx)) hwn
      (by rw [hkey, lcp_lcp_right]; exact hcm.2)
      hinc
      (by intro d hd
          rw [hkey]
          exact lcp_disjoint_of_via (hdc d hd) hcm.2)
    refine ⟨addChild l n', dn, dr, bs', ?_, pkg.1, pkg.2.1, ⟨n', pkg.2.2, hget⟩, hca'⟩
    rw [hpe]
    exact spliceChild_rebuildLoose _ n' dn dr bs' hl

/-- For a non-empty tree whose root shares a prefix with the key (or has an
empty key), Put is the root-level splice of the Put loop run on the root. -/
theorem put_eq_putLoop {a : Arc} {r : node} {k v : List Nat}
    (hr : a.root = some r) (hemp : a.emptyb = false)
    (hkb : ¬k.length > maxKeyBytes) (hvb : ¬v.length > maxValueBytes)
    (h99 : ¬(r.key ≠ [] ∧ lcp r.key k = [])) :
    Arc.Put a (some k) v =
      match putLoop r k ((setValue (node.mk k false false none []) a.blobs v).1.data,
          (setValue (node.mk k false false none []) a.blobs v).1.blobValue) v
          (setValue (node.mk k false false none []) a.blobs v).2 with
      | (.inPlace n' dn dr, bs') =>
        (Arc.mk (some n') (a.numNodes + dn) (a.numRecords + dr) bs', none)
      | (.rebuildStrict n' _ _, bs') =>
        (Arc.mk (some n') (a.numNodes + 1) (a.numRecords + 1) bs', none)
      | (.rebuildLoose n' _ _, bs') =>
        (Arc.mk (some n') (a.numNodes + 2) (a.numRecords + 1) bs', none)
      | (.fail e, bs') => (Arc.mk a.root a.numNodes a.numRecords bs', some e) := by
  have hnw : ∀ x : List Nat,
      (setValue (node.mk k false false none []) a.blobs v).1.setKey x =
      node.mk x true (setValue (node.mk k false false none []) a.blobs v).1.blobValue
        (setValue (node.mk k false false none []) a.blobs v).1.data [] := by
    intro x
    rw [setKey_eq_mk, setValue_isRecord, setValue_children]
    rfl
  simp only [Arc.Put]
  rw [if_neg hkb, if_neg hvb]
  rw [if_neg (show ¬a.emptyb = true by simp [hemp])]
  simp only [hr]
  rw [if_neg h99]
  by_cases hb1 : (lcp r.key k).length = r.key.length ∧ (lcp r.key k).length = k.length
  · rw [if_pos hb1, putLoop_exact hb1.1 hb1.2]
    rfl
  · rw [if_neg hb1]
    by_cases hb2 : (lcp r.key k).length = k.length ∧ (lcp r.key k).length < r.key.length
    · rw [if_pos hb2, putLoop_parent hb2.1 hb2.2]
    · rw [if_neg hb2]
      by_cases hb3 : 0 < (lcp r.key k).length ∧ (lcp r.key k).length < r.key.length
      · have h3 : ¬(lcp r.key k).length = k.length := fun hx => hb2 ⟨hx, hb3.2⟩
        rw [if_pos hb3, putLoop_split hb3.1 hb3.2 h3, hnw]
      · rw [if_neg hb3]
        cases h4 : findCompatibleChild r.children (k.drop (lcp r.key k).length) with
        | none =>
          simp only [h4]
          by_cases h5 : (lcp r.key k).length = r.key.length
          · rw [if_pos h5, putLoop_descend_none hb1 hb2 hb3 h4, hnw]
          · exfalso
            have hle := lcp_length_le_left r.key k
            have hlt : (lcp r.key k).length < r.key.length := lt_of_le_of_ne hle h5
            have hz : (lcp r.key k).length = 0 := by
              by_contra hz
              exact hb3 ⟨Nat.pos_of_ne_zero hz, hlt⟩
            have hnil : lcp r.key k = [] := List.length_eq_zero.mp hz
            have hkne : r.key ≠ [] := by
              intro hx
              rw [hx] at hlt
              simp at hlt
            exact h99 ⟨hkne, hnil⟩
        | some c =>
          simp only [h4]
          cases hsp : spliceChild r (k.drop (lcp r.key k).length) c
              (putLoop c (k.drop (lcp r.key k).length)
                ((setValue (node.mk k false false none []) a.blobs v).1.data,
                 (setValue (node.mk k false false none []) a.blobs v).1.blobValue) v
                (setValue (node.mk k false false none []) a.blobs v).2) with
          | mk res bs2 =>
            cases res with
            | ok t =>
              rw [putLoop_descend_some_ok hb1 hb2 hb3 h4 hsp]
            | error e =>
              rw [putLoop_descend_some_error hb1 hb2 hb3 h4 hsp]

theorem addChild_nil (c : node) : addChild [] c = [c] := rfl

theorem put_empty {a : Arc} {k v : List Nat}
    (hemp : a.emptyb = true) (hkb : ¬k.length > maxKeyBytes)
    (hvb : ¬v.length > maxValueBytes) :
    Arc.Put a (some k) v =
      (Arc.mk (some (setValue (node.mk k false false none []) a.blobs v).1) 1 1
        (setValue (node.mk k false false none []) a.blobs v).2, none) := by
  simp only [Arc.Put]
  rw [if_neg hkb, if_neg hvb, if_pos hemp]

theorem put99 {a : Arc} {r : node} {k v : List Nat}
    (hr : a.root = some r) (hemp : a.emptyb = false)
    (hkb : ¬k.length > maxKeyBytes) (hvb : ¬v.length > maxValueBytes)
    (h99 : r.key ≠ [] ∧ lcp r.key k = []) :
    Arc.Put a (some k) v = (Arc.mk (some (node.mk [] false false none
      (addChild (addChild [] r) (setValue (node.mk k false false none []) a.blobs v).1)))
      (a.numNodes + 2) (a.numRecords + 1)
      (setValue (node.mk k false false none []) a.blobs v).2, none) := by
  simp only [Arc.Put]
  rw [if_neg hkb, if_neg hvb, if_neg (show ¬a.emptyb = true by simp [hemp])]
  simp only [hr]
  rw [if_pos h99]

/-- The Arc invariant maintained by successful Put calls: an absent root
means no records, the tree below the root is sibling-prefix disjoint, and
the blob store is content-addressed. -/
def invA (a : Arc) : Prop :=
  (a.root = none → a.numRecords = 0) ∧ (∀ r, a.root = some r → wfN r) ∧
    contentAddressed a.blobs

/-- Put succeeds on every size-valid key and value in an invariant-holding
tree, preserves the invariant, and a subsequent Get of a non-empty key
returns the stored value. -/
theorem put_main {a : Arc} (k v : List Nat) (hi : invA a)
    (hkb : k.length ≤ maxKeyBytes) (hvb : v.length ≤ maxValueBytes) :
    ∃ a' : Arc, Arc.Put a (some k) v = (a', none) ∧ invA a' ∧
      (k ≠ [] → Arc.Get a' (some k) = .ok v) := by
  have hnkb : ¬k.length > maxKeyBytes := by omega
  have hnvb : ¬v.length > maxValueBytes := by omega
  have hca : contentAddressed a.blobs := hi.2.2
  have hca1 : contentAddressed (setValue (node.mk k false false none []) a.blobs v).2 :=
    setValue_ca hca v
  have hnd := setValue_nd (node.mk k false false none []) a.blobs v
  have hbs1 : blobHas (setValue (node.mk k false false none []) a.blobs v).2 v :=
    setValue_blobHas hca v
  have hknw : (setValue (node.mk k false false none []) a.blobs v).1.key = k := by
    rw [setValue_key]
    rfl
  cases hemp : a.emptyb with
  | true =>
    refine ⟨_, put_empty hemp hnkb hnvb, ⟨by simp, ?_, hca1⟩, ?_⟩
    · intro r0 hr0
      simp at hr0
      rw [← hr0]
      exact setValue_wfN (wfN_leaf k false false none) a.blobs v
    · intro hk
      refine get_of_getOK0 rfl ⟨_, none, ?_, setValue_isRecord _ _ _, setValue_roundtrip hca v⟩
      refine findNP_found (by simp) ?_ ?_
      · rw [hknw, lcp_self]
      · rw [hknw, lcp_self]
  | false =>
    cases hroot : a.root with
    | none =>
      exfalso
      have h0 := hi.1 hroot
      rw [Arc.emptyb, hroot, h0] at hemp
      simp at hemp
    | some r =>
      have hwr : wfN r := hi.2.1 r hroot
      by_cases h99 : r.key ≠ [] ∧ lcp r.key k = []
      · -- new grouping root
        refine ⟨_, put99 hroot hemp hnkb hnvb h99, ⟨by simp, ?_, hca1⟩, ?_⟩
        · intro r0 hr0
          simp at hr0
          rw [← hr0]
          refine wfN_mk_iff.mpr ⟨?_, ?_⟩
          · rw [addChild_nil]
            refine pairwise_addChild (List.pairwise_singleton _ _) ?_ ?_
            · intro d hd
              have hd' : d = r := by simpa using hd
              subst hd'
              rw [hknw]
              exact h99.2
            · intro d hd
              have hd' : d = r := by simpa using hd
              subst hd'
              rw [lcp_comm, hknw]
              exact h99.2
          · intro x hx
            rw [addChild_nil] at hx
            cases mem_addChild.mp hx with
            | inl h =>
              rw [h]
              exact setValue_wfN (wfN_leaf k false false none) a.blobs v
            | inr h =>
              have hx' : x = r := by simpa using h
              exact hx' ▸ hwr
        · intro hk
          have hfind : findCompatibleChild
              (addChild (addChild [] r) (setValue (node.mk k false false none []) a.blobs v).1) k =
              some (setValue (node.mk k false false none []) a.blobs v).1 := by
            refine findCompatibleChild_eq_of (mem_addChild.mpr (Or.inl rfl)) ?_ ?_
            · rw [hknw, lcp_self]
              exact hk
            · intro d hd hcd
              cases mem_addChild.mp hd with
              | inl h => exact h
              | inr h =>
                exfalso
                have hd' : d = r := by rw [addChild_nil] at h; simpa using h
                subst hd'
                exact hcd h99.2
          have hstep := @findNP_descend
            (node.mk [] false false none
              (addChild (addChild [] r) (setValue (node.mk k false false none []) a.blobs v).1))
            k none
            ((setValue (node.mk k false false none []) a.blobs v).1)
            (by simp)
            (by show (lcp [] k).length = ([] : List Nat).length
                rw [lcp_nil_left])
            (by show ¬(lcp [] k).length = k.length
                rw [lcp_nil_left]
                simpa using fun hx => hk (List.length_eq_zero.mp hx.symm))
            (by show findCompatibleChild _ (k.drop (lcp [] k).length) = _
                rw [lcp_nil_left]
                simpa using hfind)
          have hstep1 : findNP (node.mk [] false false none
              (addChild (addChild [] r) (setValue (node.mk k false false none []) a.blobs v).1)) k none =
              findNP (setValue (node.mk k false false none []) a.blobs v).1
                (k.drop (lcp ([] : List Nat) k).length)
                (some (node.mk [] false false none
                  (addChild (addChild [] r) (setValue (node.mk k false false none []) a.blobs v).1))) := hstep
          rw [lcp_nil_left] at hstep1
          simp only [List.length_nil, List.drop_zero] at hstep1
          refine get_of_getOK0 rfl ⟨(setValue (node.mk k false false none []) a.blobs v).1,
            some (node.mk [] false false none
              (addChild (addChild [] r) (setValue (node.mk k false false none []) a.blobs v).1)),
            ?_, setValue_isRecord _ _ _, setValue_roundtrip hca v⟩
          rw [hstep1]
          refine findNP_found ?_ ?_ ?_
          · rw [hknw, lcp_self]
            intro hx
            exact hk hx.1
          · rw [hknw, lcp_self]
          · rw [hknw, lcp_self]
      · -- root shares a prefix (or has an empty key)
        have hput := put_eq_putLoop hroot hemp hnkb hnvb h99
        by_cases hcc : lcp r.key k = []
        · have hrnil : r.key = [] := by
            by_contra hx
            exact h99 ⟨hx, hcc⟩
          by_cases hk0 : k = []
          · -- exact match on the empty-key root
            subst hk0
            have he := @putLoop_exact r []
              ((setValue (node.mk [] false false none []) a.blobs v).1.data,
                (setValue (node.mk [] false false none []) a.blobs v).1.blobValue)
              v ((setValue (node.mk [] false false none []) a.blobs v).2)
              (by rw [hcc, hrnil]) (by rw [hcc])
            rw [he] at hput
            refine ⟨_, hput, ⟨by simp, ?_, setValue_ca hca1 v⟩, ?_⟩
            · intro r0 hr0
              simp at hr0
              rw [← hr0]
              exact setValue_wfN hwr _ _
            · intro hkx
              exact absurd rfl hkx
          · -- descend from the empty-key root
            have hlcpl : (lcp r.key k).length = 0 := by rw [hcc]; rfl
            have hg1 : ¬((lcp r.key k).length = r.key.length ∧ (lcp r.key k).length = k.length) := by
              intro hx
              exact hk0 (List.length_eq_zero.mp (hlcpl ▸ hx.2).symm)
            have hg2 : ¬((lcp r.key k).length = k.length ∧ (lcp r.key k).length < r.key.length) := by
              intro hx
              exact hk0 (List.length_eq_zero.mp (hlcpl ▸ hx.1).symm)
            have hg3 : ¬(0 < (lcp r.key k).length ∧ (lcp r.key k).length < r.key.length) := by
              intro hx
              omega
            have hpl0 : (lcp r.key k).length = r.key.length := by
              rw [hlcpl, hrnil]
              rfl
            have hlt0 : (lcp r.key k).length < k.length := by
              rw [hlcpl]
              cases hkx : k with
              | nil => exact absurd hkx hk0
              | cons y ys => simp
            have hk2 : k.drop (lcp r.key k).length ≠ [] := drop_ne_nil hlt0
            cases h4 : findCompatibleChild r.children (k.drop (lcp r.key k).length) with
            | none =>
              have he := @putLoop_descend_none r k
                ((setValue (node.mk k false false none []) a.blobs v).1.data,
                  (setValue (node.mk k false false none []) a.blobs v).1.blobValue)
                v ((setValue (node.mk k false false none []) a.blobs v).2)
                hg1 hg2 hg3 h4
              rw [he] at hput
              have hinc := findCompatibleChild_none h4
              have pkg := insert_package
                (wfN_pairwise hwr) (fun x hx => wfN_mem hwr hx)
                (wfN_leaf (k.drop (lcp r.key k).length)
                  true
                  ((setValue (node.mk k false false none []) a.blobs v).1.data,
                    (setValue (node.mk k false false none []) a.blobs v).1.blobValue).2
                  ((setValue (node.mk k false false none []) a.blobs v).1.data,
                    (setValue (node.mk k false false none []) a.blobs v).1.blobValue).1)
                (by show lcp (k.drop (lcp r.key k).length) (k.drop (lcp r.key k).length) ≠ []
                    rw [lcp_self]
                    exact hk2)
                hinc hinc
              refine ⟨_, hput, ⟨by simp, ?_, hca1⟩, ?_⟩
              · intro r0 hr0
                simp at hr0
                rw [← hr0]
                cases r with
                | mk k0 r0' b0 d0 cs0 => exact wfN_mk_iff.mpr ⟨pkg.1, pkg.2.1⟩
              · intro hk
                exact get_of_getOK0 rfl
                  (parent_step_root hpl0 hlt0 pkg.2.2 (mkNew_getOK hk2 hnd hbs1 _))
            | some c =>
              obtain ⟨cs', dn, dr, bs', hsp, hwp', hwm', ⟨n', hfind', hget'⟩, hca'⟩ :=
                child_splice hwr hk2 h4 hnd hbs1 hca1
              have he := putLoop_descend_some_ok hg1 hg2 hg3 h4 hsp
              rw [he] at hput
              refine ⟨_, hput, ⟨by simp, ?_, hca'⟩, ?_⟩
              · intro r0 hr0
                simp at hr0
                rw [← hr0]
                cases r with
                | mk k0 r0' b0 d0 cs0 => exact wfN_mk_iff.mpr ⟨hwp', hwm'⟩
              · intro hk
                exact get_of_getOK0 rfl (parent_step_root hpl0 hlt0 hfind' hget')
        · -- the root key shares a non-empty prefix with k
          have hkne : k ≠ [] := by
            intro hx
            rw [hx, lcp_nil_right] at hcc
            exact hcc rfl
          have hm := putLoop_master (sizeOf r) r le_rfl k
            ((setValue (node.mk k false false none []) a.blobs v).1.data,
             (setValue (node.mk k false false none []) a.blobs v).1.blobValue) v
            (setValue (node.mk k false false none []) a.blobs v).2
            hwr hkne hcc hnd hbs1 hca1
          rcases hm with ⟨n', dn, dr, bs', hpe, hkey, hwn, hget, hca'⟩ |
            ⟨n', dn, dr, bs', hpe, hkey, hwn, hget, hca'⟩ |
            ⟨n', dn, dr, bs', hpe, hkey, hwn, hget, hca'⟩ <;>
          · rw [hpe] at hput
            refine ⟨_, hput, ⟨by simp, ?_, hca'⟩, ?_⟩
            · intro r0 hr0
              simp at hr0
              rw [← hr0]
              exact hwn
            · intro hk
              exact get_of_getOK0 rfl (getOK_to_getOK0 hget)

theorem put_nilKey (a : Arc) (v : List Nat) :
    Arc.Put a none v = (a, some .nilKey) := rfl

theorem put_keyTooLarge {a : Arc} {k v : List Nat}
    (h : k.length > maxKeyBytes) :
    Arc.Put a (some k) v = (a, some .keyTooLarge) := by
  simp only [Arc.Put]
  rw [if_pos h]

theorem put_valueTooLarge {a : Arc} {k v : List Nat}
    (hk : ¬k.length > maxKeyBytes) (hv : v.length > maxValueBytes) :
    Arc.Put a (some k) v = (a, some .valueTooLarge) := by
  simp only [Arc.Put]
  rw [if_neg hk, if_pos hv]

theorem invA_arcNew : invA arcNew := by
  refine ⟨fun _ => rfl, ?_, ?_⟩
  · intro r h
    simp [arcNew] at h
  · intro e he
    simp [arcNew] at he

theorem reachable_invA {a : Arc} (h : Reachable a) : invA a := by
  induction h with
  | base => exact invA_arcNew
  | put hr hp ih =>
    rename_i a0 a1 k v
    by_cases hkb : k.length > maxKeyBytes
    · rw [put_keyTooLarge hkb] at hp
      simp at hp
    · by_cases hvb : v.length > maxValueBytes
      · rw [put_valueTooLarge hkb hvb] at hp
        simp at hp
      · obtain ⟨a2, he, hi2, _⟩ := put_main k v ih (by omega) (by omega)
        rw [he] at hp
        simp at hp
        rw [← hp]
        exact hi2

/-- wfN is hereditary along the subtree relation. -/
theorem wfN_inTree {n r : node} (hw : wfN r) (ht : InTree n r) : wfN n := by
  induction ht with
  | refl => exact hw
  | child hc _ ih => exact ih (wfN_mem hw hc)

/-! ## Concrete evaluation helpers for the claims -/

theorem put_a1_eval :
    Arc.Put arcNew (some [97]) [1] =
      (Arc.mk (some (node.mk [97] true false (some [1]) [])) 1 1 [], none) := by
  rw [put_empty (by decide) (by decide) (by decide)]
  rfl

theorem put_a2_eval :
    Arc.Put (Arc.mk (some (node.mk [97] true false (some [1]) [])) 1 1 []) (some []) [2] =
      (Arc.mk (some (node.mk [] false false none
        [node.mk [] true false (some [2]) [], node.mk [97] true false (some [1]) []])) 3 2 [],
        none) := by
  rw [put99 rfl (by decide) (by decide) (by decide) (by decide)]
  rfl

/-- C1: on any tree reachable by successful Puts, for every non-empty key of
at most 65535 bytes and value of at most 2^32-1 bytes, Put(key, value)
succeeds and a following Get(key) returns exactly the stored bytes — the
amended form of the claim, whose original "non-nil" quantification fails on
the empty (but non-nil) key, see the counterexample. -/
theorem C1_put_get_roundtrip {a : Arc} {k v : List Nat}
    (hr : Reachable a) (hk : k ≠ []) (hkb : k.length ≤ 65535)
    (hvb : v.length ≤ 4294967295) :
    (Arc.Put a (some k) v).2 = none ∧
      Arc.Get (Arc.Put a (some k) v).1 (some k) = .ok v := by
  obtain ⟨a', he, _, hg⟩ := put_main k v (reachable_invA hr) hkb hvb
  rw [he]
  exact ⟨rfl, hg hk⟩

/-- C1 counterexample: on the reachable tree holding only key [97], the
empty non-nil key is accepted by Put but a following Get of it returns
ErrKeyNotFound instead of the stored value, so the claim fails for non-nil
keys of length 0. -/
theorem C1_counterexample :
    (Arc.Put (Arc.Put arcNew (some [97]) [1]).1 (some []) [2]).2 = none ∧
    Arc.Get (Arc.Put (Arc.Put arcNew (some [97]) [1]).1 (some []) [2]).1 (some []) =
      .error .keyNotFound := by
  rw [put_a1_eval]
  have h2 := put_a2_eval
  constructor
  · rw [h2]
  · rw [h2]
    have hf : findNP (node.mk [] false false none
        [node.mk [] true false (some [2]) [], node.mk [97] true false (some [1]) []])
        [] none = .ok (node.mk [] false false none
        [node.mk [] true false (some [2]) [], node.mk [97] true false (some [1]) []], none) := by
      refine findNP_found (by simp) (by decide) (by decide)
    simp only [Arc.Get]
    rw [if_neg (by decide)]
    simp only [hf]
    rfl

/-- C1 witness: the amended claim applied on the empty tree with key [97]
and value [1]. -/
theorem C1_witness :
    Reachable arcNew ∧ ([97] : List Nat) ≠ [] ∧
      ((Arc.Put arcNew (some [97]) [1]).2 = none ∧
        Arc.Get (Arc.Put arcNew (some [97]) [1]).1 (some [97]) = .ok [1]) :=
  ⟨Reachable.base, by decide,
    C1_put_get_roundtrip Reachable.base (by decide) (by decide) (by decide)⟩

/-- C8: in every tree reachable from the empty tree by successful Puts, the
children of any node are pairwise free of shared non-empty key prefixes,
and consequently findCompatibleChild finds at most one compatible child:
it returns the unique child sharing a non-empty prefix with the probe, or
none when no child does. -/
theorem C8_sibling_prefix_disjoint {a : Arc} {r n : node}
    (hr : Reachable a) (hroot : a.root = some r) (ht : InTree n r) :
    n.children.Pairwise (fun x y => lcp x.key y.key = []) ∧
    ∀ k : List Nat,
      match findCompatibleChild n.children k with
      | some c => c ∈ n.children ∧ lcp c.key k ≠ [] ∧
          ∀ d ∈ n.children, lcp d.key k ≠ [] → d = c
      | none => ∀ d ∈ n.children, lcp d.key k = [] := by
  have hw : wfN n := wfN_inTree ((reachable_invA hr).2.1 r hroot) ht
  refine ⟨wfN_pairwise hw, ?_⟩
  intro k
  cases h : findCompatibleChild n.children k with
  | some c =>
    have hs := findCompatibleChild_some h
    exact ⟨hs.1, hs.2, fun d hd hcd => uniq_compat (wfN_pairwise hw) hs.1 hs.2 hd hcd⟩
  | none => exact findCompatibleChild_none h

/-- C8 witness: the tree after Put([97], [1]) on the empty tree, probed at
its root. -/
theorem C8_witness :
    Reachable (Arc.mk (some (node.mk [97] true false (some [1]) [])) 1 1 []) ∧
      ((node.mk [97] true false (some [1]) ([] : List node)).children.Pairwise
          (fun x y => lcp x.key y.key = []) ∧
        ∀ k : List Nat,
          match findCompatibleChild (node.mk [97] true false (some [1])
              ([] : List node)).children k with
          | some c => c ∈ (node.mk [97] true false (some [1]) ([] : List node)).children ∧
              lcp c.key k ≠ [] ∧
              ∀ d ∈ (node.mk [97] true false (some [1]) ([] : List node)).children,
                lcp d.key k ≠ [] → d = c
          | none => ∀ d ∈ (node.mk [97] true false (some [1]) ([] : List node)).children,
              lcp d.key k = []) :=
  have hre : Reachable (Arc.mk (some (node.mk [97] true false (some [1]) [])) 1 1 []) :=
    Reachable.put Reachable.base put_a1_eval
  ⟨hre, C8_sibling_prefix_disjoint hre rfl (InTree.refl _)⟩

/-- C9: Get with a nil key returns ErrNilKey (not ErrKeyNotFound) on every
tree state, including the empty tree — the nil check precedes everything. -/
theorem C9_get_nil (a : Arc) : Arc.Get a none = .error .nilKey := rfl

/-- C3: Put returns ErrNilKey on a nil key, ErrKeyTooLarge when the key
exceeds 65535 bytes, and ErrValueTooLarge when the key is in range but the
value exceeds 2^32-1 bytes; in each failing case the returned handle is the
untouched input (root, node count, record count and blob store unchanged). -/
theorem C3_put_validation (a : Arc) (k v : List Nat) :
    Arc.Put a none v = (a, some .nilKey) ∧
    (k.length > 65535 → Arc.Put a (some k) v = (a, some .keyTooLarge)) ∧
    (k.length ≤ 65535 → v.length > 4294967295 →
      Arc.Put a (some k) v = (a, some .valueTooLarge)) :=
  ⟨put_nilKey a v, fun h => put_keyTooLarge h,
    fun h1 h2 => put_valueTooLarge (by simp only [maxKeyBytes]; omega) h2⟩

/-- C3 witness: the three validation failures at concrete inputs, each
leaving the empty handle unchanged. -/
theorem C3_witness :
    Arc.Put arcNew none [] = (arcNew, some .nilKey) ∧
    ((List.replicate 65536 0).length > 65535 ∧
      Arc.Put arcNew (some (List.replicate 65536 0)) [] = (arcNew, some .keyTooLarge)) ∧
    (([0] : List Nat).length ≤ 65535 ∧ (List.replicate 4294967296 0).length > 4294967295 ∧
      Arc.Put arcNew (some [0]) (List.replicate 4294967296 0) = (arcNew, some .valueTooLarge)) :=
  ⟨(C3_put_validation arcNew [] []).1,
    ⟨by rw [List.length_replicate]; omega,
      (C3_put_validation arcNew (List.replicate 65536 0) []).2.1
        (by rw [List.length_replicate]; omega)⟩,
    ⟨by decide, by rw [List.length_replicate]; omega,
      (C3_put_validation arcNew [0] (List.replicate 4294967296 0)).2.2 (by decide)
        (by rw [List.length_replicate]; omega)⟩⟩

theorem delete_on_empty {a : Arc} {k : List Nat} (h : a.emptyb = true) :
    Arc.Delete a (some k) = (a, some .keyNotFound) := by
  simp only [Arc.Delete]
  rw [if_pos h]

theorem delete_keyTooLarge {a : Arc} {k : List Nat} (hemp : a.emptyb = false)
    (h : k.length > maxKeyBytes) :
    Arc.Delete a (some k) = (a, some .keyTooLarge) := by
  simp only [Arc.Delete]
  rw [if_neg (show ¬a.emptyb = true by simp [hemp]), if_pos h]

/-- C10: Delete on an empty tree returns ErrKeyNotFound for every non-nil
key, of any length (the emptiness check precedes the key-size check), and
ErrKeyTooLarge can only ever come out of Delete when the tree is
non-empty. -/
theorem C10_delete_empty :
    (∀ (a : Arc) (k : List Nat), a.emptyb = true →
      Arc.Delete a (some k) = (a, some .keyNotFound)) ∧
    (∀ (a a' : Arc) (k : List Nat), Arc.Delete a (some k) = (a', some .keyTooLarge) →
      a.emptyb = false) := by
  refine ⟨fun a k h => delete_on_empty h, ?_⟩
  intro a a' k h
  cases hemp : a.emptyb with
  | false => rfl
  | true =>
    rw [delete_on_empty hemp] at h
    simp at h

/-- C10 witness: a 70000-byte key on the empty tree gets ErrKeyNotFound,
and a concrete ErrKeyTooLarge return implies the tree was non-empty. -/
theorem C10_witness :
    Arc.Delete arcNew (some (List.replicate 70000 0)) = (arcNew, some .keyNotFound) ∧
    (Arc.mk (some (node.mk [97] true false (some [1]) [])) 1 1 []).emptyb = false :=
  ⟨C10_delete_empty.1 arcNew (List.replicate 70000 0) rfl,
    C10_delete_empty.2 (Arc.mk (some (node.mk [97] true false (some [1]) [])) 1 1 [])
      (Arc.mk (some (node.mk [97] true false (some [1]) [])) 1 1 [])
      (List.replicate 65536 0)
      (delete_keyTooLarge rfl (by rw [List.length_replicate]; simp only [maxKeyBytes]; omega))⟩

theorem put_a2b_eval :
    Arc.Put (Arc.mk (some (node.mk [97] true false (some [1]) [])) 1 1 []) (some [97, 98]) [2] =
      (Arc.mk (some (node.mk [97] true false (some [1])
        [node.mk [98] true false (some [2]) []])) 2 2 [], none) := rfl

theorem delete_ab_eval :
    Arc.Delete (Arc.mk (some (node.mk [97] true false (some [1])
        [node.mk [98] true false (some [2]) []])) 2 2 []) (some [97, 98]) =
      (Arc.mk (some (node.mk [97] true false (some [1])
        [node.mk [98] true false (some [2]) []])) 2 2 [], none) := by
  have hstep := @findNP_descend
    (node.mk [97] true false (some [1]) [node.mk [98] true false (some [2]) []])
    [97, 98] none
    (node.mk [98] true false (some [2]) [])
    (by decide) (by decide) (by decide) (by rfl)
  have hstep1 : findNP (node.mk [97] true false (some [1])
      [node.mk [98] true false (some [2]) []]) [97, 98] none =
      findNP (node.mk [98] true false (some [2]) []) [98]
        (some (node.mk [97] true false (some [1])
          [node.mk [98] true false (some [2]) []])) := hstep
  have hfound : findNP (node.mk [98] true false (some [2]) []) [98]
      (some (node.mk [97] true false (some [1])
        [node.mk [98] true false (some [2]) []])) =
      .ok (node.mk [98] true false (some [2]) [],
        some (node.mk [97] true false (some [1])
          [node.mk [98] true false (some [2]) []])) :=
    findNP_found (by decide) (by decide) (by decide)
  simp only [Arc.Delete]
  rw [if_neg (by decide), if_neg (by decide)]
  simp only [hstep1, hfound]
  rfl

theorem delete_a_eval :
    Arc.Delete (Arc.mk (some (node.mk [97] true false (some [1])
        [node.mk [98] true false (some [2]) []])) 2 2 []) (some [97]) =
      (Arc.mk (some (node.mk [97, 98] true false (some [2]) [])) 1 1 [], none) := by
  have hfound : findNP (node.mk [97] true false (some [1])
      [node.mk [98] true false (some [2]) []]) [97] none =
      .ok (node.mk [97] true false (some [1])
        [node.mk [98] true false (some [2]) []], none) :=
    findNP_found (by decide) (by decide) (by decide)
  simp only [Arc.Delete]
  rw [if_neg (by decide), if_neg (by decide)]
  simp only [hfound]
  rfl

/-- C2: evaluating Delete at the failing input.  After Put([97]) and
Put([97,98]) on the empty tree, deleting the non-root record [97,98]
returns success while removing nothing (the state is unchanged), and after
then deleting [97] as well, both deletes have "succeeded" yet the tree
still holds one record and a non-nil root — contradicting Delete's own
documentation ("Delete removes a record that matches the given key") and
the spec's empty-after-deleting-everything property. -/
theorem C2_delete_noop_eval :
    Arc.Put (Arc.Put arcNew (some [97]) [1]).1 (some [97, 98]) [2] =
      (Arc.mk (some (node.mk [97] true false (some [1])
        [node.mk [98] true false (some [2]) []])) 2 2 [], none) ∧
    Arc.Delete (Arc.mk (some (node.mk [97] true false (some [1])
        [node.mk [98] true false (some [2]) []])) 2 2 []) (some [97, 98]) =
      (Arc.mk (some (node.mk [97] true false (some [1])
        [node.mk [98] true false (some [2]) []])) 2 2 [], none) ∧
    Arc.Delete (Arc.mk (some (node.mk [97] true false (some [1])
        [node.mk [98] true false (some [2]) []])) 2 2 []) (some [97]) =
      (Arc.mk (some (node.mk [97, 98] true false (some [2]) [])) 1 1 [], none) ∧
    (Arc.mk (some (node.mk [97, 98] true false (some [2]) [])) 1 1
      ([] : blobStore)).Len = 1 ∧
    (Arc.mk (some (node.mk [97, 98] true false (some [2]) [])) 1 1
      ([] : blobStore)).root ≠ none := by
  refine ⟨?_, delete_ab_eval, delete_a_eval, rfl, by simp⟩
  rw [put_a1_eval]
  exact put_a2b_eval

/-- C4: when Delete reaches a record at the root, the three root-deletion
shapes hold: a leaf root clears the whole tree; a single-child root is
replaced by that child with the root's key segment prepended and the node
count drops by one; a multi-child root stays with its value cleared and
record flag unset; in the two non-leaf cases the record count drops by
exactly one. -/
theorem C4_delete_root_cases {a : Arc} {r m : node} {k : List Nat}
    (hroot : a.root = some r) (hemp : a.emptyb = false) (hkb : ¬k.length > 65535)
    (hfind : findNP r k none = .ok (m, none)) (hrec : m.isRecord = true) :
    (r.children = [] → Arc.Delete a (some k) = (Arc.mk none 0 0 a.blobs, none)) ∧
    (∀ c : node, r.children = [c] → Arc.Delete a (some k) =
      (Arc.mk (some (c.prependKey r.key)) (a.numNodes - 1) (a.numRecords - 1)
        a.blobs, none)) ∧
    (2 ≤ r.children.length → Arc.Delete a (some k) =
      (Arc.mk (some (node.mk r.key false r.blobValue none r.children)) a.numNodes
        (a.numRecords - 1) a.blobs, none)) := by
  have hkb' : ¬k.length > maxKeyBytes := by simpa [maxKeyBytes] using hkb
  have hdel : Arc.Delete a (some k) = (a.deleteRootNode, none) := by
    simp only [Arc.Delete]
    rw [if_neg (by simp [hemp]), if_neg hkb']
    simp only [hroot, hfind]
    rw [if_neg (by simp [hrec])]
  refine ⟨?_, ?_, ?_⟩
  · intro hc
    rw [hdel]
    simp only [Arc.deleteRootNode, hroot]
    rw [if_pos (by simp [node.isLeaf, hc])]
    rfl
  · intro c hc
    rw [hdel]
    simp only [Arc.deleteRootNode, hroot]
    rw [if_neg (by simp [node.isLeaf, hc]), if_pos (by simp [node.numChildren, hc])]
    simp only [hc]
  · intro hc
    rw [hdel]
    simp only [Arc.deleteRootNode, hroot]
    obtain ⟨c1, rest, hcs⟩ : ∃ c1 rest, r.children = c1 :: rest := by
      cases hx : r.children with
      | nil => rw [hx] at hc; simp at hc
      | cons y ys => exact ⟨y, ys, rfl⟩
    rw [if_neg (by simp [node.isLeaf, hcs]),
      if_neg (by simp only [node.numChildren]; omega)]

/-- C4 witness: deleting the root record of the two-node tree holding [97]
and [97,98]: the single child absorbs the root's key segment. -/
theorem C4_witness :
    Arc.Delete (Arc.mk (some (node.mk [97] true false (some [1])
        [node.mk [98] true false (some [2]) []])) 2 2 []) (some [97]) =
      (Arc.mk (some ((node.mk [98] true false (some [2]) []).prependKey [97]))
        (2 - 1) (2 - 1) [], none) :=
  (@C4_delete_root_cases
      (Arc.mk (some (node.mk [97] true false (some [1])
        [node.mk [98] true false (some [2]) []])) 2 2 [])
      (node.mk [97] true false (some [1]) [node.mk [98] true false (some [2]) []])
      (node.mk [97] true false (some [1]) [node.mk [98] true false (some [2]) []])
      [97]
      rfl (by decide) (by decide)
      (findNP_found (by decide) (by decide) (by decide)) (by decide)).2.1
    (node.mk [98] true false (some [2]) []) rfl

/-- C5: serializeWithoutKey fails with ErrInvalidChecksum exactly when the
cached checksum disagrees with the one recomputed from the node's current
content, and otherwise emits, little-endian, the 4-byte checksum, the
8-byte value length, the value bytes, the 2-byte child count and the
16-byte reserved region of two 8-byte offset slots; the key segment does
not occur in the layout. -/
theorem C5_serialize_layout (n : rnode) :
    (n.checksum ≠ checksumOf n.key n.data n.isRecord →
      n.serializeWithoutKey = .error .invalidChecksum) ∧
    (n.checksum = checksumOf n.key n.data n.isRecord →
      n.serializeWithoutKey = .ok (toLE 4 n.checksum ++ toLE 8 n.data.length ++
        n.data ++ toLE 2 n.numChildren ++ List.replicate 16 0)) := by
  constructor
  · intro h
    simp only [rnode.serializeWithoutKey]
    rw [if_pos]
    simp [rnode.verifyChecksum, rnode.calculateChecksum, h]
  · intro h
    simp only [rnode.serializeWithoutKey]
    rw [if_neg]
    simp [rnode.verifyChecksum, rnode.calculateChecksum, h]

/-- C5 witness: a concretely checksummed node serializes to the exact
layout, and tampering with the checksum makes serialization fail. -/
theorem C5_witness :
    ((rnode.mk [97] [98] true 2 (checksumOf [97] [98] true)).checksum =
      checksumOf [97] [98] true ∧
      (rnode.mk [97] [98] true 2
          (checksumOf [97] [98] true)).serializeWithoutKey =
        .ok (toLE 4 (checksumOf [97] [98] true) ++ toLE 8 1 ++ [98] ++ toLE 2 2 ++
          List.replicate 16 0)) ∧
    ((rnode.mk [97] [98] true 2 (checksumOf [97] [98] true + 1)).checksum ≠
      checksumOf [97] [98] true ∧
      (rnode.mk [97] [98] true 2
          (checksumOf [97] [98] true + 1)).serializeWithoutKey =
        .error .invalidChecksum) :=
  ⟨⟨rfl, (C5_serialize_layout (rnode.mk [97] [98] true 2
      (checksumOf [97] [98] true))).2 rfl⟩,
    ⟨by decide, (C5_serialize_layout (rnode.mk [97] [98] true 2
      (checksumOf [97] [98] true + 1))).1 (by decide)⟩⟩

/-- C6: BlobStore.put returns a blobID determined only by the value's
content — the same ID on every store — and putting the same value n ≥ 1
times into an empty store leaves exactly one entry for that ID, with
refCount n (so refCount 1 after the first call); put is a total function
and never fails. -/
theorem C6_blob_put_dedup (v : List Nat) :
    (∀ s : blobStore, (blobPut s v).1 = makeBlobID v) ∧
    (∀ n : Nat, 1 ≤ n → putN v n = [(makeBlobID v, v, n)]) := by
  refine ⟨fun s => blobPut_fst s v, ?_⟩
  intro n hn
  induction n with
  | zero => omega
  | succ m ihm =>
    cases m with
    | zero =>
      show (blobPut (putN v 0) v).2 = _
      simp [putN, blobPut, blobFind, makeBlobID]
    | succ m' =>
      have hprev := ihm (by omega)
      show (blobPut (putN v (m' + 1)) v).2 = _
      rw [hprev]
      simp [blobPut, blobFind, makeBlobID, List.find?]

/-- C6 witness: three puts of the same value from the empty store. -/
theorem C6_witness :
    (blobPut ([] : blobStore) [5]).1 = makeBlobID [5] ∧
    (1 ≤ 3 ∧ putN [5] 3 = [(makeBlobID [5], [5], 3)]) :=
  ⟨(C6_blob_put_dedup [5]).1 [], by omega, (C6_blob_put_dedup [5]).2 3 (by omega)⟩

theorem blobFind_cons (e : List Nat × List Nat × Nat) (es : blobStore) (j : List Nat) :
    blobFind (e :: es) j = if e.1 = j then some e.2 else blobFind es j := by
  simp only [blobFind, List.find?]
  by_cases h : e.1 = j
  · simp [h]
  · simp [h]

theorem blobFind_filter (s : blobStore) (i j : List Nat) :
    blobFind (List.filter (fun x => decide (¬ x.1 = i)) s) j =
      if j = i then none else blobFind s j := by
  induction s with
  | nil =>
    show (none : Option (List Nat × Nat)) = if j = i then none else none
    split <;> rfl
  | cons e es ih =>
    rw [List.filter_cons]
    by_cases hei : e.1 = i
    · rw [if_neg (by simp [hei]), ih, blobFind_cons]
      by_cases hji : j = i
      · simp [hji]
      · rw [if_neg hji, if_neg hji, if_neg (fun h => hji (h.symm.trans hei))]
    · rw [if_pos (by simp [hei]), blobFind_cons, ih, blobFind_cons]
      by_cases hej : e.1 = j
      · by_cases hji : j = i
        · exact absurd (hej.trans hji) hei
        · simp [hej, hji]
      · by_cases hji : j = i <;> simp [hej, hji, hei]

theorem blobFind_map_dec (s : blobStore) (i j : List Nat) :
    blobFind (List.map (fun x => if x.1 = i then (x.1, x.2.1, x.2.2 - 1) else x) s) j =
      if j = i then (blobFind s i).map (fun e => (e.1, e.2 - 1)) else blobFind s j := by
  induction s with
  | nil =>
    show (none : Option (List Nat × Nat)) = if j = i then none else none
    split <;> rfl
  | cons e es ih =>
    simp only [List.map_cons]
    by_cases hei : e.1 = i
    · simp only [if_pos hei]
      rw [blobFind_cons, ih]
      by_cases hji : j = i
      · rw [if_pos (show (e.1, e.2.1, e.2.2 - 1).1 = j from hei.trans hji.symm),
          if_pos hji, blobFind_cons, if_pos hei]
        rfl
      · rw [if_neg (show ¬(e.1, e.2.1, e.2.2 - 1).1 = j from
          fun h => hji (h.symm.trans hei)), if_neg hji, if_neg hji, blobFind_cons,
          if_neg (fun h : e.1 = j => hji (h.symm.trans hei))]
    · simp only [if_neg hei]
      rw [blobFind_cons, ih]
      by_cases hej : e.1 = j
      · have hji : ¬j = i := fun h => hei (hej.trans h)
        rw [if_pos hej, if_neg hji, blobFind_cons, if_pos hej]
      · by_cases hji : j = i
        · rw [if_neg hej, if_pos hji, if_pos hji, blobFind_cons, if_neg (hji ▸ hei)]
        · rw [if_neg hej, if_neg hji, if_neg hji, blobFind_cons, if_neg hej]

/-- C7: release of a present blobID decrements its refCount and removes the
entry exactly when the count reaches zero, release of an absent blobID
leaves the store unchanged (and never fails), and release preserves the
invariant that every lookup yields a refCount of at least 1. -/
theorem C7_blob_release (s : blobStore) (i : List Nat) :
    (blobFind s i = none → blobRelease s i = s) ∧
    (∀ j, blobFind (blobRelease s i) j =
      if j = i then
        match blobFind s i with
        | none => none
        | some e => if e.2 - 1 = 0 then none else some (e.1, e.2 - 1)
      else blobFind s j) ∧
    ((∀ j e, blobFind s j = some e → 1 ≤ e.2) →
      ∀ j e, blobFind (blobRelease s i) j = some e → 1 ≤ e.2) := by
  have hchar : ∀ j, blobFind (blobRelease s i) j =
      if j = i then
        match blobFind s i with
        | none => none
        | some e => if e.2 - 1 = 0 then none else some (e.1, e.2 - 1)
      else blobFind s j := by
    intro j
    simp only [blobRelease]
    cases hf : blobFind s i with
    | none =>
      show blobFind s j = if j = i then none else blobFind s j
      by_cases hji : j = i
      · rw [if_pos hji, hji, hf]
      · rw [if_neg hji]
    | some e =>
      show blobFind (if e.2 - 1 = 0 then List.filter (fun x => decide (¬ x.1 = i)) s
          else List.map (fun x => if x.1 = i then (x.1, x.2.1, x.2.2 - 1) else x) s) j =
        if j = i then (if e.2 - 1 = 0 then none else some (e.1, e.2 - 1)) else blobFind s j
      by_cases hz : e.2 - 1 = 0
      · rw [if_pos hz, blobFind_filter]
        by_cases hji : j = i
        · rw [if_pos hji, if_pos hji, if_pos hz]
        · rw [if_neg hji, if_neg hji]
      · rw [if_neg hz, blobFind_map_dec]
        by_cases hji : j = i
        · rw [if_pos hji, if_pos hji, hf, if_neg hz]
          rfl
        · rw [if_neg hji, if_neg hji]
  refine ⟨?_, hchar, ?_⟩
  · intro h
    simp only [blobRelease, h]
  · intro hinv j e hje
    rw [hchar j] at hje
    by_cases hji : j = i
    · rw [if_pos hji] at hje
      cases hf : blobFind s i with
      | none => rw [hf] at hje; cases hje
      | some e0 =>
        rw [hf] at hje
        have hje2 : (if e0.2 - 1 = 0 then none else some (e0.1, e0.2 - 1)) = some e := hje
        by_cases hz : e0.2 - 1 = 0
        · rw [if_pos hz] at hje2
          cases hje2
        · rw [if_neg hz] at hje2
          have he : e = (e0.1, e0.2 - 1) := by
            cases hje2
            rfl
          rw [he]
          omega
    · rw [if_neg hji] at hje
      exact hinv j e hje

/-- C7 witness: releasing an absent ID is a no-op, and releasing one of two
references decrements the count to 1. -/
theorem C7_witness :
    blobRelease ([([5], [5], 2)] : blobStore) [9] = [([5], [5], 2)] ∧
    blobFind (blobRelease ([([5], [5], 2)] : blobStore) [5]) [5] = some ([5], 1) := by
  constructor
  · exact (C7_blob_release [([5], [5], 2)] [9]).1 (by decide)
  · rw [(C7_blob_release [([5], [5], 2)] [5]).2.1 [5]]
    decide
